import Mathlib

set_option linter.unusedVariables false
set_option linter.unusedSectionVars false

/-!
Galaster: the multilevel force-directed layout core (`src/layout.hh`).

A shallow embedding of `bounding_box`, `layer::repulsion_force`,
`layer::spring_force`, `layer::update_velocity`, `layer::apply_displacement`,
`layer::layout` and `finest_layer::layout`.

Modelling conventions.

* The code is a template over `_coord_type`; the embedding is generic over a
  linearly ordered field `α` (exact arithmetic, no rounding, no NaN).  The
  square root used by `vector3d::mod` is the parameter `sqrt : α → α`.
* Pointers to vertices and edges are handles (`VId`, `EId`) into a memory
  `Mem α`; pointer equality is handle equality; a nullable pointer is an
  `Option`.
* `scalar * vector` and `vector * scalar` of the C++ code are both written
  `scalar • vector`.
* `rand_range` is an oracle `Nat → α → α → α`: its first argument counts the
  draws made so far, and the counter is threaded through the code.
* The `#pragma omp parallel for` loops are run sequentially, in index order.
-/

namespace Galaster

/-- Handle of a vertex (a `vertex_type *`). -/
abbrev VId := Nat

/-- Handle of an edge (an `edge_type *`). -/
abbrev EId := Nat

/-- Modelled from the spec: `vector3d<_coord_type>` (declared in a header that is
not part of the sources at hand), "three scalar components". -/
@[ext] structure vector3d (α : Type) where
  x : α
  y : α
  z : α
deriving DecidableEq, Repr

namespace vector3d

variable {α : Type}

instance [Zero α] : Zero (vector3d α) := ⟨⟨0, 0, 0⟩⟩
instance [Add α] : Add (vector3d α) := ⟨fun u v => ⟨u.x + v.x, u.y + v.y, u.z + v.z⟩⟩
instance [Neg α] : Neg (vector3d α) := ⟨fun u => ⟨-u.x, -u.y, -u.z⟩⟩
instance [Sub α] : Sub (vector3d α) := ⟨fun u v => ⟨u.x - v.x, u.y - v.y, u.z - v.z⟩⟩
instance [Mul α] : SMul α (vector3d α) := ⟨fun c u => ⟨c * u.x, c * u.y, c * u.z⟩⟩

@[simp] theorem zero_x [Zero α] : (0 : vector3d α).x = 0 := rfl
@[simp] theorem zero_y [Zero α] : (0 : vector3d α).y = 0 := rfl
@[simp] theorem zero_z [Zero α] : (0 : vector3d α).z = 0 := rfl
@[simp] theorem add_x [Add α] (u v : vector3d α) : (u + v).x = u.x + v.x := rfl
@[simp] theorem add_y [Add α] (u v : vector3d α) : (u + v).y = u.y + v.y := rfl
@[simp] theorem add_z [Add α] (u v : vector3d α) : (u + v).z = u.z + v.z := rfl
@[simp] theorem neg_x [Neg α] (u : vector3d α) : (-u).x = -u.x := rfl
@[simp] theorem neg_y [Neg α] (u : vector3d α) : (-u).y = -u.y := rfl
@[simp] theorem neg_z [Neg α] (u : vector3d α) : (-u).z = -u.z := rfl
@[simp] theorem sub_x [Sub α] (u v : vector3d α) : (u - v).x = u.x - v.x := rfl
@[simp] theorem sub_y [Sub α] (u v : vector3d α) : (u - v).y = u.y - v.y := rfl
@[simp] theorem sub_z [Sub α] (u v : vector3d α) : (u - v).z = u.z - v.z := rfl
@[simp] theorem smul_x [Mul α] (c : α) (u : vector3d α) : (c • u).x = c * u.x := rfl
@[simp] theorem smul_y [Mul α] (c : α) (u : vector3d α) : (c • u).y = c * u.y := rfl
@[simp] theorem smul_z [Mul α] (c : α) (u : vector3d α) : (c • u).z = c * u.z := rfl

instance [Ring α] : AddCommGroup (vector3d α) where
  add_assoc := by intros; ext <;> simp [add_assoc]
  zero_add := by intros; ext <;> simp
  add_zero := by intros; ext <;> simp
  nsmul := nsmulRec
  zsmul := zsmulRec
  neg_add_cancel := by intros; ext <;> simp
  add_comm := by intros; ext <;> simp [add_comm]
  sub_eq_add_neg := by intros; ext <;> simp [sub_eq_add_neg]

instance [Ring α] : Module α (vector3d α) where
  one_smul := by intros; ext <;> simp
  mul_smul := by intros; ext <;> simp [mul_assoc]
  smul_zero := by intros; ext <;> simp
  smul_add := by intros; ext <;> simp [mul_add]
  add_smul := by intros; ext <;> simp [add_mul]
  zero_smul := by intros; ext <;> simp

/-- Modelled from the spec: `vector3d::mod`, the "Euclidean magnitude"; `sqrt` is
the square root of the coordinate type. -/
def mod [Add α] [Mul α] (sqrt : α → α) (u : vector3d α) : α :=
  sqrt (u.x * u.x + u.y * u.y + u.z * u.z)

/-- Modelled from the spec: `vector3d::bound`, which "rescales a vector's
magnitude down to at most `limit` if it exceeds it, leaving direction
unchanged". -/
def bound [LinearOrderedField α] (sqrt : α → α) (limit : α) (u : vector3d α) : vector3d α :=
  if limit < mod sqrt u then (limit / mod sqrt u) • u else u

end vector3d

/-- Modelled from the spec: `vertex<_coord_type>` (declared in `layer.hh`, which is
not part of the sources at hand): position, velocity, current and next
acceleration, last displacement, incident edges, optional coarser vertex. -/
structure vertex (α : Type) where
  x : vector3d α
  dx : vector3d α
  ddx : vector3d α
  ddx_ : vector3d α
  delta : vector3d α
  es : List EId
  coarser : Option VId

/-- Modelled from the spec: `edge<_coord_type>` together with the payload of its
subclass `edge_styled` (declared in headers that are not part of the sources at
hand).  `styled` records whether the object is an `edge_styled` (what
`dynamic_cast` tests); `spline` and `vspline` are the spline flag and the
lazily created virtual centroid vertex. -/
structure edge (α : Type) where
  a : VId
  b : VId
  strength : α
  oriented : Bool
  styled : Bool
  spline : Bool
  vspline : Option VId

/-- Modelled from the spec: `layer<_coord_type>` (declared in `layer.hh`): the
vertex list and the simulation parameters. -/
structure layer (α : Type) where
  vs : List VId
  f0 : α
  eps : α
  K : α
  damping : α
  dilation : α

/-- The memory the layout code works on: the vertex objects, the edge objects,
and the first vertex handle not yet handed out by `new`. -/
structure Mem (α : Type) where
  vert : VId → vertex α
  edg : EId → edge α
  brk : VId

variable {α : Type} [LinearOrderedField α]

/-- Embedding of `layer::spring_force` (`layout.hh`, lines 70-84). -/
def layer.spring_force (L : layer α) (m : Mem α) (v1 v2 : VId) (e : EId) : vector3d α :=
  let F_p : vector3d α := 0
  let dx := (m.vert v1).x - (m.vert v2).x
  let F_p := F_p - (m.edg e).strength • (L.K • dx)
  if (m.edg e).oriented then
    F_p + (if (m.edg e).b = v1 then (⟨0, -0.4, 0⟩ : vector3d α) else ⟨0, 0.4, 0⟩)
  else F_p

/-- Write the vertex object `w` at handle `v`. -/
def Mem.setVert (m : Mem α) (v : VId) (w : vertex α) : Mem α :=
  { m with vert := Function.update m.vert v w }

/-- The six outputs of `bounding_box`. -/
structure bbox (α : Type) where
  x_min : α
  x_max : α
  y_min : α
  y_max : α
  z_min : α
  z_max : α

/-- The body of the loop of `bounding_box`: take the position of `v` into the
running extents. -/
def bounding_box_step (m : Mem α) (acc : bbox α) (v : VId) : bbox α :=
  let p := (m.vert v).x
  { x_min := min acc.x_min p.x, x_max := max acc.x_max p.x,
    y_min := min acc.y_min p.y, y_max := max acc.y_max p.y,
    z_min := min acc.z_min p.z, z_max := max acc.z_max p.z }

/-- Embedding of `bounding_box` (`layout.hh`, lines 13-38): the running extents
start at `-10 .. 10` on every axis, take in every vertex, and are widened by 10
on both sides. -/
def bounding_box (m : Mem α) (vs : List VId) : bbox α :=
  let acc := vs.foldl (bounding_box_step m)
    { x_min := -10, x_max := 10, y_min := -10, y_max := 10, z_min := -10, z_max := 10 }
  { x_min := acc.x_min - 10, x_max := acc.x_max + 10,
    y_min := acc.y_min - 10, y_max := acc.y_max + 10,
    z_min := acc.z_min - 10, z_max := acc.z_max + 10 }

/-- One iteration of the loop of `layer::repulsion_force`: the contribution of
`v2` to the force on `v`.  The state is the force accumulated so far and the
number of random draws made so far. -/
def layer.repulsion_step (sqrt : α → α) (rand_range : Nat → α → α → α) (L : layer α)
    (m : Mem α) (v : VId) (acc : vector3d α × Nat) (v2 : VId) : vector3d α × Nat :=
  if v ≠ v2 then
    let dx := (m.vert v).x - (m.vert v2).x
    let dd := vector3d.mod sqrt dx
    let denom := L.eps + dd
    let fac := L.f0 / (denom * denom * denom)
    if dd < L.eps then
      let dx : vector3d α :=
        ⟨rand_range acc.2 (-L.eps) L.eps,
         rand_range (acc.2 + 1) (-L.eps) L.eps,
         rand_range (acc.2 + 2) (-L.eps) L.eps⟩
      (acc.1 + fac • dx, acc.2 + 3)
    else (acc.1 + fac • dx, acc.2)
  else acc

/-- Embedding of `layer::repulsion_force` (`layout.hh`, lines 46-67).  Returns the
force and the advanced draw counter. -/
def layer.repulsion_force (sqrt : α → α) (rand_range : Nat → α → α → α) (L : layer α)
    (m : Mem α) (v : VId) (vs : List VId) (rng : Nat) : vector3d α × Nat :=
  vs.foldl (L.repulsion_step sqrt rand_range m v) (0, rng)

/-- Embedding of `layer::update_velocity` (`layout.hh`, lines 87-94), statement by
statement. -/
def layer.update_velocity (L : layer α) (m : Mem α) (v : VId) (dt : α) : Mem α :=
  let m1 := match (m.vert v).coarser with
    | some c => m.setVert v { m.vert v with ddx_ := (m.vert v).ddx_ + L.dilation • (m.vert c).ddx }
    | none => m
  let m2 := m1.setVert v
    { m1.vert v with dx := (m1.vert v).dx + dt • ((0.5 : α) • ((m1.vert v).ddx + (m1.vert v).ddx_)) }
  let m3 := m2.setVert v { m2.vert v with dx := L.damping • (m2.vert v).dx }
  m3.setVert v { m3.vert v with ddx := (m3.vert v).ddx_ }

/-- Embedding of `layer::apply_displacement` (`layout.hh`, lines 97-103), statement
by statement. -/
def layer.apply_displacement (sqrt : α → α) (L : layer α) (m : Mem α) (v : VId) (dt : α) :
    Mem α :=
  let m1 := m.setVert v
    { m.vert v with delta := dt • (m.vert v).dx + ((0.5 : α) * dt * dt) • (m.vert v).ddx }
  let m2 := m1.setVert v { m1.vert v with delta := vector3d.bound sqrt 3 (m1.vert v).delta }
  m2.setVert v { m2.vert v with x := (m2.vert v).x + (m2.vert v).delta }


/-- Modelled from the spec: the interface of `spatial_octree<_coord_type>`
(`spatial_octree.hh` is not part of the sources at hand), taken as a parameter.
`T` is the type of trees; `alloc` builds the root cell over a bounding box,
`insert` places a vertex, `repulsion_force t m rng v f0 eps` is the query
`t->repulsion_force(v, f0, eps)` made in memory `m` with the draw counter at `rng`,
and returns the force and the advanced counter.  `recycle` only returns nodes to
the pool and is left out. -/
structure spatial_octree (α : Type) (T : Type) where
  alloc : bbox α → T
  insert : T → Mem α → VId → T
  repulsion_force : T → Mem α → Nat → VId → α → α → vector3d α × Nat

/-- The body of the loop over `v->es` in `layer::layout` (lines 132-137). -/
def layer.spring_step (L : layer α) (m : Mem α) (v : VId) (F_p : vector3d α) (e : EId) :
    vector3d α :=
  if (m.edg e).a ≠ (m.edg e).b then
    let v2 := if (m.edg e).a = v then (m.edg e).b else (m.edg e).a
    F_p + L.spring_force m v v2 e
  else F_p

/-- The body of the force loop of `layer::layout` (lines 126-141) for the vertex
`v`.  The state is the memory and the draw counter. -/
def layer.force_step {T : Type} (O : spatial_octree α T) (t : T) (L : layer α)
    (s : Mem α × Nat) (v : VId) : Mem α × Nat :=
  let r := O.repulsion_force t s.1 s.2 v L.f0 L.eps
  let F_r := r.1
  let F_p := (s.1.vert v).es.foldl (L.spring_step s.1 v) 0
  (s.1.setVert v { s.1.vert v with ddx_ := F_r + F_p }, r.2)

/-- The force loop of `layer::layout` (lines 124-141), over the vertex list of the
layer. -/
def layer.force_loop {T : Type} (O : spatial_octree α T) (t : T) (L : layer α)
    (s : Mem α × Nat) : Mem α × Nat :=
  L.vs.foldl (L.force_step O t) s

/-- The tree that `layer::layout` builds (lines 113-121) over the vertices `vs` in
memory `m`. -/
def build_tree {T : Type} (O : spatial_octree α T) (m : Mem α) (vs : List VId) : T :=
  vs.foldl (fun t v => O.insert t m v) (O.alloc (bounding_box m vs))

/-- Lines 110-141 of `layer::layout`: displacement, index construction and force
evaluation, up to the point where every `ddx_` holds the net force. -/
def layer.forces {T : Type} (sqrt : α → α) (O : spatial_octree α T) (L : layer α)
    (s : Mem α × Nat) (dt : α) : Mem α × Nat :=
  let m1 := L.vs.foldl (fun m v => L.apply_displacement sqrt m v dt) s.1
  let t := build_tree O m1 L.vs
  L.force_loop O t (m1, s.2)

/-- Embedding of `layer::layout` (`layout.hh`, lines 107-148). -/
def layer.layout {T : Type} (sqrt : α → α) (O : spatial_octree α T) (L : layer α)
    (s : Mem α × Nat) (dt : α) : Mem α × Nat :=
  let s2 := L.forces sqrt O s dt
  (L.vs.foldl (fun m v => L.update_velocity m v dt) s2.1, s2.2)

/-- The other endpoint of `e` as seen from `v`: `(e->a == v) ? e->b : e->a`. -/
def other_end (m : Mem α) (v : VId) (e : EId) : VId :=
  if (m.edg e).a = v then (m.edg e).b else (m.edg e).a

/-- The sum, over the incident edges `e` of `v` with `e.a ≠ e.b`, of
`spring_force(v, other endpoint of e, e)`. -/
def spring_sum (L : layer α) (m : Mem α) (v : VId) : vector3d α :=
  ((((m.vert v).es.filter (fun e => decide ((m.edg e).a ≠ (m.edg e).b))).map
    (fun e => L.spring_force m v (other_end m v e) e))).sum

/-- A spatial index that keeps the inserted vertices in a list and evaluates every
other body exactly, by the pairwise loop of `layer::repulsion_force`. -/
def exact_index (sqrt : α → α) (rand_range : Nat → α → α → α) : spatial_octree α (List VId) :=
  { alloc := fun _ => []
    insert := fun t _ v => t ++ [v]
    repulsion_force := fun t m rng v f0 eps =>
      layer.repulsion_force sqrt rand_range
        { vs := t, f0 := f0, eps := eps, K := 0, damping := 1, dilation := 0 } m v t rng }

/-- Modelled from the spec: `edge_styled::set_spline` (declared in a header that is
not part of the sources at hand), which "lazily creates" the edge's "virtual
centroid vertex": a new vertex object is allocated at the first free handle,
with the contents `init m e`, and `e.vspline` is made to point to it. -/
def set_spline (init : Mem α → EId → vertex α) (m : Mem α) (e : EId) : Mem α :=
  { vert := Function.update m.vert m.brk (init m e)
    edg := Function.update m.edg e { m.edg e with vspline := some m.brk }
    brk := m.brk + 1 }

/-- The state of the first loop of `finest_layer::layout`: the memory, the layer's
own vertex list `this->vs`, and the local working list `vs`. -/
structure working_set (α : Type) where
  mem : Mem α
  this_vs : List VId
  vs : List VId

/-- The body of the inner loop of lines 162-171 of `finest_layer::layout`, for the
edge `e` of the vertex `v`.  The `static_cast` reads the `edge_styled` payload
without a test.  `push_back` appends the pointer `e.vspline`, which `set_spline`
has set if it was null. -/
def finest_layer.collect_step (init : Mem α → EId → vertex α) (v : VId)
    (s : working_set α) (e : EId) : working_set α :=
  if (s.mem.edg e).spline = true ∧ (s.mem.edg e).a = v then
    let m1 := if (s.mem.edg e).vspline = none then set_spline init s.mem e else s.mem
    { mem := m1, this_vs := s.this_vs, vs := s.vs ++ ((m1.edg e).vspline).toList }
  else s

/-- Lines 161-171 of `finest_layer::layout`: the working list starts as a copy of
`this->vs` and receives the centroid vertices of the spline edges. -/
def finest_layer.working_vs (init : Mem α → EId → vertex α) (L : layer α) (m : Mem α) :
    working_set α :=
  L.vs.foldl
    (fun s v => (s.mem.vert v).es.foldl (finest_layer.collect_step init v) s)
    { mem := m, this_vs := L.vs, vs := L.vs }

/-- The body of the loop over `v->es` in `finest_layer::layout` (lines 195-206).
`none` stands for the dereference of a null `vspline` in `spring_force`. -/
def finest_layer.spring_step (L : layer α) (m : Mem α) (v : VId) (F_p : vector3d α)
    (e : EId) : Option (vector3d α) :=
  let is_spline_edge := (m.edg e).styled && (m.edg e).spline
  if (m.edg e).a ≠ (m.edg e).b ∨ is_spline_edge = true then
    if is_spline_edge = true then
      match (m.edg e).vspline with
      | some v2 => some (F_p + L.spring_force m v v2 e)
      | none => none
    else
      some (F_p + L.spring_force m v (if (m.edg e).a = v then (m.edg e).b else (m.edg e).a) e)
  else some F_p

/-- The body of the force loop of `finest_layer::layout` (lines 189-210) for the
vertex `v`. -/
def finest_layer.force_step {T : Type} (O : spatial_octree α T) (t : T) (L : layer α)
    (s : Mem α × Nat) (v : VId) : Option (Mem α × Nat) :=
  let r := O.repulsion_force t s.1 s.2 v L.f0 L.eps
  let F_r := r.1
  match (s.1.vert v).es.foldlM (finest_layer.spring_step L s.1 v) 0 with
  | some F_p => some (s.1.setVert v { s.1.vert v with ddx_ := F_r + F_p }, r.2)
  | none => none

/-- Embedding of `finest_layer::layout` (`layout.hh`, lines 151-217).  The result
is `none` when a null `vspline` is dereferenced. -/
def finest_layer.layout {T : Type} (sqrt : α → α) (O : spatial_octree α T)
    (init : Mem α → EId → vertex α) (L : layer α) (s : Mem α × Nat) (dt : α) :
    Option (working_set α × Nat) :=
  let w := finest_layer.working_vs init L s.1
  let m1 := w.vs.foldl (fun m v => L.apply_displacement sqrt m v dt) w.mem
  let t := build_tree O m1 w.vs
  match w.vs.foldlM (finest_layer.force_step O t L) (m1, s.2) with
  | some s2 =>
    some ({ mem := w.vs.foldl (fun m v => L.update_velocity m v dt) s2.1
            this_vs := w.this_vs, vs := w.vs }, s2.2)
  | none => none

/-- The orientation bias of `spring_force` for the endpoint `v` of `e`. -/
def orientation_bias (m : Mem α) (v : VId) (e : EId) : vector3d α :=
  if (m.edg e).oriented then
    (if (m.edg e).b = v then (⟨0, -0.4, 0⟩ : vector3d α) else ⟨0, 0.4, 0⟩)
  else 0

/-- The spring term of the edge `e` on the vertex `v` in the finest layer, in the
words of the spline claim: for an edge flagged spline the pull toward the
virtual centroid, `-K * e.strength * (v.x - centroid.x)` plus the orientation
bias (`none` without a centroid); for another edge that is not a self-loop
`spring_force(v, other endpoint, e)`; nothing for another self-loop. -/
def finest_spring_term (L : layer α) (m : Mem α) (v : VId) (e : EId) : Option (vector3d α) :=
  if (m.edg e).styled = true ∧ (m.edg e).spline = true then
    ((m.edg e).vspline).map
      (fun c => (-L.K * (m.edg e).strength) • ((m.vert v).x - (m.vert c).x)
        + orientation_bias m v e)
  else if (m.edg e).a ≠ (m.edg e).b then
    some (L.spring_force m v (other_end m v e) e)
  else some 0

/-- The occurrences the working-list claim counts for the vertex `v`: the edges in
the incident list of `v` that are flagged spline and have `v` as their canonical
endpoint `e.a`. -/
def spline_occurrences (m : Mem α) (v : VId) : List EId :=
  (m.vert v).es.filter (fun e => decide ((m.edg e).spline = true ∧ (m.edg e).a = v))

/-- The memory `M` is `m` after some centroid vertices have been created: the
vertex objects below `m.brk` are as they were, new ones lie from `m.brk` on, and
edges differ at most in `vspline`, which is kept where it was set and otherwise
is null or points to a new object. -/
def extends_mem (m M : Mem α) : Prop :=
  m.brk ≤ M.brk
    ∧ (∀ v, v < m.brk → M.vert v = m.vert v)
    ∧ (∀ e, M.edg e = { m.edg e with vspline := (M.edg e).vspline })
    ∧ (∀ e c, (m.edg e).vspline = some c → (M.edg e).vspline = some c)
    ∧ (∀ e c, (M.edg e).vspline = some c →
        (m.edg e).vspline = some c ∨ ((m.edg e).vspline = none ∧ m.brk ≤ c ∧ c < M.brk))

/-- A memory with the real vertices 0 and 1 joined by the edge 0, which is a
spline edge from 0 to 1 without a centroid yet and is recorded in the incident
lists of both; every other edge is plain. -/
def spline_mem (α : Type) [LinearOrderedField α] : Mem α :=
  { vert := fun _ =>
      { x := 0, dx := 0, ddx := 0, ddx_ := 0, delta := 0, es := [0], coarser := none }
    edg := fun e =>
      { a := 0, b := 1, strength := 1, oriented := false, styled := true,
        spline := decide (e = 0), vspline := none }
    brk := 2 }

/-- The contents given to a new centroid vertex in the examples: at rest at the
origin, without edges. -/
def centroid_init (α : Type) [LinearOrderedField α] (m : Mem α) (e : EId) : vertex α :=
  { x := 0, dx := 0, ddx := 0, ddx_ := 0, delta := 0, es := [], coarser := none }

/-- The memory `m'` differs from `m` at most in the `ddx_` fields of vertices. -/
def only_ddx_ (m m' : Mem α) : Prop :=
  m'.edg = m.edg ∧ m'.brk = m.brk ∧
    ∀ u, (m'.vert u).x = (m.vert u).x ∧ (m'.vert u).dx = (m.vert u).dx
      ∧ (m'.vert u).ddx = (m.vert u).ddx ∧ (m'.vert u).delta = (m.vert u).delta
      ∧ (m'.vert u).es = (m.vert u).es ∧ (m'.vert u).coarser = (m.vert u).coarser

/-- A coarse layer holding the single vertex 0, all parameters 1. -/
def coarse_layer (α : Type) [LinearOrderedField α] : layer α :=
  { vs := [0], f0 := 1, eps := 1, K := 1, damping := 1, dilation := 1 }

/-- A fine layer holding the single vertex 1, `dilation = 1`, all parameters 1. -/
def fine_layer (α : Type) [LinearOrderedField α] : layer α :=
  { vs := [1], f0 := 1, eps := 1, K := 1, damping := 1, dilation := 1 }

/-- A two-level memory: the coarse vertex 0 has `ddx = (1, 0, 0)` and no coarser
vertex; every other vertex is at rest with vertex 0 as its coarser vertex; no
vertex has an edge. -/
def two_level_mem (α : Type) [LinearOrderedField α] : Mem α :=
  { vert := fun v =>
      if v = 0 then
        { x := 0, dx := 0, ddx := ⟨1, 0, 0⟩, ddx_ := 0, delta := 0, es := [], coarser := none }
      else
        { x := 0, dx := 0, ddx := 0, ddx_ := 0, delta := 0, es := [], coarser := some 0 }
    edg := fun _ =>
      { a := 0, b := 1, strength := 1, oriented := false, styled := false, spline := false,
        vspline := none }
    brk := 2 }

/-- The unclamped Verlet displacement `dx*dt + 0.5*ddx*dt^2` that the
displacement claim speaks of. -/
def raw_delta (w : vertex α) (dt : α) : vector3d α :=
  dt • w.dx + ((0.5 : α) * dt * dt) • w.ddx

/-- The sum over all vertices `v` of `us` of `repulsion_force(v, vs)`, the calls made
one after the other on the same random source. -/
def total_repulsion (sqrt : α → α) (rand_range : Nat → α → α → α) (L : layer α)
    (m : Mem α) (us vs : List VId) (rng : Nat) : vector3d α × Nat :=
  us.foldl
    (fun (acc : vector3d α × Nat) v =>
      let r := L.repulsion_force sqrt rand_range m v vs acc.2
      (acc.1 + r.1, r.2))
    (0, rng)

/-- The pairwise term `f0 * dx / (eps + |dx|)^3` of the force law, for the force of
`v2` on `v`; zero for `v2 = v`. -/
def pair_repulsion (sqrt : α → α) (L : layer α) (m : Mem α) (v v2 : VId) : vector3d α :=
  if v ≠ v2 then
    (L.f0 / ((L.eps + vector3d.mod sqrt ((m.vert v).x - (m.vert v2).x))
        * (L.eps + vector3d.mod sqrt ((m.vert v).x - (m.vert v2).x))
        * (L.eps + vector3d.mod sqrt ((m.vert v).x - (m.vert v2).x))))
      • ((m.vert v).x - (m.vert v2).x)
  else 0

/-- A memory whose vertex `v` sits at `pos v`, at rest, without edges. -/
def mem_at (pos : VId → vector3d α) : Mem α :=
  { vert := fun v =>
      { x := pos v, dx := 0, ddx := 0, ddx_ := 0, delta := 0, es := [], coarser := none }
    edg := fun _ =>
      { a := 0, b := 1, strength := 1, oriented := false, styled := false, spline := false,
        vspline := none }
    brk := 2 }

/-- Positions of a two-body configuration: vertex 0 at the origin, every other
vertex at `(1, 0, 0)`. -/
def unit_apart (α : Type) [LinearOrderedField α] (v : VId) : vector3d α :=
  if v = 0 then 0 else ⟨1, 0, 0⟩

/-- A layer over vertices 0 and 1 with `f0 = 27`, softening length `eps = 2` and the
other parameters 1. -/
def soft_layer (α : Type) [LinearOrderedField α] : layer α :=
  { vs := [0, 1], f0 := 27, eps := 2, K := 1, damping := 1, dilation := 1 }

/-- The perturbation vector that `repulsion_force` draws when the draw counter
stands at `rng`: three calls of `rand_range(-eps, eps)`. -/
def perturbation (rand_range : Nat → α → α → α) (L : layer α) (rng : Nat) : vector3d α :=
  ⟨rand_range rng (-L.eps) L.eps, rand_range (rng + 1) (-L.eps) L.eps,
    rand_range (rng + 2) (-L.eps) L.eps⟩

/-- The acceleration `a` of the velocity claim: `ddx_ + dilation * coarser.ddx` when
`v` has a coarser vertex, `ddx_` otherwise. -/
def coupled_ddx (L : layer α) (m : Mem α) (v : VId) : vector3d α :=
  match (m.vert v).coarser with
  | some c => (m.vert v).ddx_ + L.dilation • (m.vert c).ddx
  | none => (m.vert v).ddx_

/-- A memory with one oriented edge and every vertex at rest at the origin
except for a velocity of 10 along the x axis; used to instantiate theorems. -/
def demo_mem (α : Type) [LinearOrderedField α] : Mem α :=
  { vert := fun _ =>
      { x := 0, dx := ⟨10, 0, 0⟩, ddx := 0, ddx_ := 0, delta := 0, es := [], coarser := none }
    edg := fun _ =>
      { a := 0, b := 1, strength := 1, oriented := true, styled := false, spline := false,
        vspline := none }
    brk := 2 }

/-- A layer over the two vertices of `demo_mem`, all parameters 1. -/
def demo_layer (α : Type) [LinearOrderedField α] : layer α :=
  { vs := [0, 1], f0 := 1, eps := 1, K := 1, damping := 1, dilation := 1 }

/-- The value `lo` is the smallest of the coordinates `c v` observed over the
vertices `v` of `vs`. -/
def is_smallest (c : VId → α) (vs : List VId) (lo : α) : Prop :=
  (∃ v ∈ vs, c v = lo) ∧ ∀ v ∈ vs, lo ≤ c v

/-- The value `hi` is the largest of the coordinates `c v` observed over the
vertices `v` of `vs`. -/
def is_largest (c : VId → α) (vs : List VId) (hi : α) : Prop :=
  (∃ v ∈ vs, c v = hi) ∧ ∀ v ∈ vs, c v ≤ hi

/-- Positions of a two-body configuration away from the origin: vertex 0 at
`(100, 0, 0)`, every other vertex at `(130, 0, 0)`. -/
def off_centre (α : Type) [LinearOrderedField α] (v : VId) : vector3d α :=
  if v = 0 then ⟨100, 0, 0⟩ else ⟨130, 0, 0⟩

/-- Lines 161-174 of `finest_layer::layout`: the memory after the working list has
been built and every working vertex has been displaced. -/
def finest_layer.displaced (sqrt : α → α) (init : Mem α → EId → vertex α) (L : layer α)
    (m : Mem α) (dt : α) : Mem α :=
  (finest_layer.working_vs init L m).vs.foldl
    (fun m v => L.apply_displacement sqrt m v dt) (finest_layer.working_vs init L m).mem

/-- The edge `e` has a centroid when the force loop of the finest layer starts from
the memory `m`: it has one already, or it is flagged spline and listed in the
incident list of its canonical endpoint `e.a`, a vertex of the layer, so that
lines 161-171 create one. -/
def has_centroid_source (L : layer α) (m : Mem α) (e : EId) : Prop :=
  (m.edg e).vspline ≠ none ∨ e ∈ L.vs.flatMap (spline_occurrences m)

/-- Every vertex object of `M` from `m.brk` on has the contents `init` gives to a
new centroid. -/
def fresh_from (init : Mem α → EId → vertex α) (m M : Mem α) : Prop :=
  ∀ u, m.brk ≤ u → u < M.brk → ∃ M' e, M.vert u = init M' e

/-- Every spline term of the vertex `v` is defined in `m`: no edge in the incident
list of `v` is flagged spline without having a centroid. -/
def springs_defined (m : Mem α) (v : VId) : Prop :=
  ∀ e ∈ (m.vert v).es, (m.edg e).styled = true → (m.edg e).spline = true →
    (m.edg e).vspline ≠ none

/-- A memory in which the spline edge 0, from vertex 0 to vertex 1 and without a
centroid, is listed in the incident list of vertex 1 only. -/
def half_listed_mem (α : Type) [LinearOrderedField α] : Mem α :=
  { vert := fun v =>
      { x := 0, dx := 0, ddx := 0, ddx_ := 0, delta := 0,
        es := if v = 1 then [0] else [], coarser := none }
    edg := fun e =>
      { a := 0, b := 1, strength := 1, oriented := false, styled := true,
        spline := decide (e = 0), vspline := none }
    brk := 2 }

/-! Theorems. -/

@[simp] theorem Mem.setVert_vert_same (m : Mem α) (v : VId) (w : vertex α) :
    (m.setVert v w).vert v = w := by
  simp [Mem.setVert]

theorem Mem.setVert_vert_ne (m : Mem α) {u v : VId} (w : vertex α) (h : u ≠ v) :
    (m.setVert v w).vert u = m.vert u := by
  simp [Mem.setVert, Function.update_noteq h]

@[simp] theorem Mem.setVert_edg (m : Mem α) (v : VId) (w : vertex α) :
    (m.setVert v w).edg = m.edg := rfl

@[simp] theorem Mem.setVert_brk (m : Mem α) (v : VId) (w : vertex α) :
    (m.setVert v w).brk = m.brk := rfl

/-- The sum of squares under the root of `mod` is not negative. -/
theorem vector3d.sq_sum_nonneg (u : vector3d α) : 0 ≤ u.x * u.x + u.y * u.y + u.z * u.z := by
  nlinarith [mul_self_nonneg u.x, mul_self_nonneg u.y, mul_self_nonneg u.z]

/-- With a genuine square root, `mod` is homogeneous for non-negative factors. -/
theorem vector3d.mod_smul (sqrt : α → α)
    (hsqrt : ∀ s, 0 ≤ s → 0 ≤ sqrt s ∧ sqrt s * sqrt s = s)
    (c : α) (hc : 0 ≤ c) (u : vector3d α) :
    vector3d.mod sqrt (c • u) = c * vector3d.mod sqrt u := by
  unfold vector3d.mod
  have hs := vector3d.sq_sum_nonneg u
  have hcs : 0 ≤ c * u.x * (c * u.x) + c * u.y * (c * u.y) + c * u.z * (c * u.z) :=
    vector3d.sq_sum_nonneg (c • u)
  obtain ⟨h1, h2⟩ := hsqrt _ hs
  obtain ⟨h3, h4⟩ := hsqrt _ hcs
  simp only [vector3d.smul_x, vector3d.smul_y, vector3d.smul_z]
  refine (mul_self_inj h3 (mul_nonneg hc h1)).1 ?_
  rw [h4]
  have : c * sqrt (u.x * u.x + u.y * u.y + u.z * u.z)
      * (c * sqrt (u.x * u.x + u.y * u.y + u.z * u.z))
      = c * c * (sqrt (u.x * u.x + u.y * u.y + u.z * u.z)
        * sqrt (u.x * u.x + u.y * u.y + u.z * u.z)) := by ring
  rw [this, h2]
  ring

/-- A vector longer than a non-negative `limit` comes out of `bound` with
magnitude exactly `limit`. -/
theorem vector3d.mod_bound_of_lt (sqrt : α → α)
    (hsqrt : ∀ s, 0 ≤ s → 0 ≤ sqrt s ∧ sqrt s * sqrt s = s)
    (limit : α) (hl : 0 ≤ limit) (u : vector3d α) (h : limit < vector3d.mod sqrt u) :
    vector3d.mod sqrt (vector3d.bound sqrt limit u) = limit := by
  have hpos : 0 < vector3d.mod sqrt u := lt_of_le_of_lt hl h
  rw [vector3d.bound, if_pos h, vector3d.mod_smul sqrt hsqrt _ (div_nonneg hl hpos.le)]
  field_simp

/-- The clamp invariant of `bound`. -/
theorem vector3d.mod_bound_le (sqrt : α → α)
    (hsqrt : ∀ s, 0 ≤ s → 0 ≤ sqrt s ∧ sqrt s * sqrt s = s)
    (limit : α) (hl : 0 ≤ limit) (u : vector3d α) :
    vector3d.mod sqrt (vector3d.bound sqrt limit u) ≤ limit := by
  by_cases h : limit < vector3d.mod sqrt u
  · exact (vector3d.mod_bound_of_lt sqrt hsqrt limit hl u h).le
  · rw [vector3d.bound, if_neg h]
    exact not_lt.1 h

/-- What `apply_displacement` leaves at `v`. -/
theorem layer.apply_displacement_vert (sqrt : α → α) (L : layer α) (m : Mem α) (v : VId)
    (dt : α) :
    (L.apply_displacement sqrt m v dt).vert v =
      { m.vert v with
        delta := vector3d.bound sqrt 3 (raw_delta (m.vert v) dt)
        x := (m.vert v).x + vector3d.bound sqrt 3 (raw_delta (m.vert v) dt) } := by
  simp [layer.apply_displacement, raw_delta]

/-- `apply_displacement` writes to `v` only. -/
theorem layer.apply_displacement_vert_ne (sqrt : α → α) (L : layer α) (m : Mem α)
    {u v : VId} (dt : α) (h : u ≠ v) :
    (L.apply_displacement sqrt m v dt).vert u = m.vert u := by
  simp [layer.apply_displacement, Mem.setVert_vert_ne _ _ h]

/-- C1. `spring_force(v1, v2, e)` is `-K * e.strength * (v1.x - v2.x)` when the edge
is not oriented; when it is oriented the same vector plus the constant
`(0, -0.4, 0)` if `v1` is the target endpoint `e.b`, and `(0, 0.4, 0)`
otherwise. -/
theorem spring_force_eq (L : layer α) (m : Mem α) (v1 v2 : VId) (e : EId) :
    L.spring_force m v1 v2 e =
      if (m.edg e).oriented then
        (-L.K * (m.edg e).strength) • ((m.vert v1).x - (m.vert v2).x)
          + (if (m.edg e).b = v1 then (⟨0, -0.4, 0⟩ : vector3d α) else ⟨0, 0.4, 0⟩)
      else (-L.K * (m.edg e).strength) • ((m.vert v1).x - (m.vert v2).x) := by
  have h : (0 : vector3d α) - (m.edg e).strength • (L.K • ((m.vert v1).x - (m.vert v2).x))
      = (-L.K * (m.edg e).strength) • ((m.vert v1).x - (m.vert v2).x) := by
    ext <;> simp <;> ring
  unfold layer.spring_force
  simp only [h]

/-- The running extents only grow, and take in every vertex of the list. -/
theorem bounding_box_fold (m : Mem α) (vs : List VId) (acc : bbox α) :
    ((vs.foldl (bounding_box_step m) acc).x_min ≤ acc.x_min
        ∧ acc.x_max ≤ (vs.foldl (bounding_box_step m) acc).x_max
        ∧ (vs.foldl (bounding_box_step m) acc).y_min ≤ acc.y_min
        ∧ acc.y_max ≤ (vs.foldl (bounding_box_step m) acc).y_max
        ∧ (vs.foldl (bounding_box_step m) acc).z_min ≤ acc.z_min
        ∧ acc.z_max ≤ (vs.foldl (bounding_box_step m) acc).z_max)
      ∧ ∀ v ∈ vs,
        (vs.foldl (bounding_box_step m) acc).x_min ≤ (m.vert v).x.x
          ∧ (m.vert v).x.x ≤ (vs.foldl (bounding_box_step m) acc).x_max
          ∧ (vs.foldl (bounding_box_step m) acc).y_min ≤ (m.vert v).x.y
          ∧ (m.vert v).x.y ≤ (vs.foldl (bounding_box_step m) acc).y_max
          ∧ (vs.foldl (bounding_box_step m) acc).z_min ≤ (m.vert v).x.z
          ∧ (m.vert v).x.z ≤ (vs.foldl (bounding_box_step m) acc).z_max := by
  induction vs generalizing acc with
  | nil => simp
  | cons w ws ih =>
    obtain ⟨⟨a1, a2, a3, a4, a5, a6⟩, hin⟩ := ih (bounding_box_step m acc w)
    simp only [List.foldl_cons]
    refine ⟨⟨a1.trans (min_le_left _ _), (le_max_left _ _).trans a2,
      a3.trans (min_le_left _ _), (le_max_left _ _).trans a4,
      a5.trans (min_le_left _ _), (le_max_left _ _).trans a6⟩, ?_⟩
    intro v hv
    rcases List.mem_cons.1 hv with rfl | hv
    · exact ⟨a1.trans (min_le_right _ _), (le_max_right _ _).trans a2,
        a3.trans (min_le_right _ _), (le_max_right _ _).trans a4,
        a5.trans (min_le_right _ _), (le_max_right _ _).trans a6⟩
    · exact hin v hv

/-- What `update_velocity` leaves at `v`, in terms of the coupled acceleration. -/
theorem layer.update_velocity_vert (L : layer α) (m : Mem α) (v : VId) (dt : α) :
    (L.update_velocity m v dt).vert v =
      { m.vert v with
        ddx_ := coupled_ddx L m v
        dx := L.damping • ((m.vert v).dx + dt • ((0.5 : α) • ((m.vert v).ddx + coupled_ddx L m v)))
        ddx := coupled_ddx L m v } := by
  unfold layer.update_velocity coupled_ddx
  cases h : (m.vert v).coarser <;> simp [h]

/-- `update_velocity` writes to `v` only. -/
theorem layer.update_velocity_vert_ne (L : layer α) (m : Mem α) {u v : VId} (dt : α)
    (h : u ≠ v) : (L.update_velocity m v dt).vert u = m.vert u := by
  unfold layer.update_velocity
  cases hc : (m.vert v).coarser <;> simp [Mem.setVert_vert_ne _ _ h]

/-- `mod` does not see the sign of a difference. -/
theorem vector3d.mod_sub_comm (sqrt : α → α) (u v : vector3d α) :
    vector3d.mod sqrt (u - v) = vector3d.mod sqrt (v - u) := by
  unfold vector3d.mod
  congr 1
  simp only [vector3d.sub_x, vector3d.sub_y, vector3d.sub_z]
  ring

/-- Newton's third law for the pairwise term. -/
theorem pair_repulsion_antisymm (sqrt : α → α) (L : layer α) (m : Mem α) (u v : VId) :
    pair_repulsion sqrt L m u v = -pair_repulsion sqrt L m v u := by
  unfold pair_repulsion
  by_cases h : u = v
  · subst h
    simp
  · have h' : v ≠ u := fun e => h e.symm
    rw [if_pos h, if_pos h', vector3d.mod_sub_comm sqrt (m.vert v).x (m.vert u).x,
      ← smul_neg, neg_sub]

theorem pair_repulsion_self (sqrt : α → α) (L : layer α) (m : Mem α) (u : VId) :
    pair_repulsion sqrt L m u u = 0 := by
  simp [pair_repulsion]

/-- A double sum of an antisymmetric kernel over a list vanishes. -/
theorem sum_sum_antisymm {M : Type} [AddCommGroup M] (g : VId → VId → M)
    (hself : ∀ i, g i i = 0) (hanti : ∀ i j, g i j = -g j i) (l : List VId) :
    (l.map (fun i => (l.map (g i)).sum)).sum = 0 := by
  induction l with
  | nil => simp
  | cons a l ih =>
    have h1 : ((l.map (fun i => g i a + (l.map (g i)).sum)).sum : M)
        = (l.map (fun i => g i a)).sum + (l.map (fun i => (l.map (g i)).sum)).sum :=
      List.sum_map_add
    have h2 : ((l.map (g a)).sum : M) + (l.map (fun i => g i a)).sum = 0 := by
      rw [← List.sum_map_add]
      have : (fun i => g a i + g i a) = fun _ => (0 : M) := by
        funext i
        rw [hanti a i, neg_add_cancel]
      rw [this]
      simp
    simp only [List.map_cons, List.sum_cons, hself, zero_add]
    rw [h1, ih, add_zero, h2]

/-- Without a pair closer than `eps`, the loop of `repulsion_force` adds up the
pairwise terms and draws nothing. -/
theorem layer.repulsion_fold_far (sqrt : α → α) (rand_range : Nat → α → α → α) (L : layer α)
    (m : Mem α) (v : VId) (ws : List VId) (acc : vector3d α × Nat)
    (hfar : ∀ v2 ∈ ws, v ≠ v2 →
      ¬ vector3d.mod sqrt ((m.vert v).x - (m.vert v2).x) < L.eps) :
    ws.foldl (L.repulsion_step sqrt rand_range m v) acc
      = (acc.1 + (ws.map (pair_repulsion sqrt L m v)).sum, acc.2) := by
  induction ws generalizing acc with
  | nil => simp
  | cons w ws ih =>
    rw [List.foldl_cons, ih _ (fun v2 h2 => hfar v2 (List.mem_cons_of_mem _ h2))]
    by_cases h : v = w
    · subst h
      simp [layer.repulsion_step, pair_repulsion]
    · have hw := hfar w (List.mem_cons_self _ _) h
      simp [layer.repulsion_step, pair_repulsion, h, hw, add_assoc]

/-- Without a pair closer than `eps`, the calls of `repulsion_force` for the
vertices of `us` add up to the double sum of the pairwise terms. -/
theorem total_repulsion_fold_far (sqrt : α → α) (rand_range : Nat → α → α → α) (L : layer α)
    (m : Mem α) (us vs : List VId) (acc : vector3d α × Nat)
    (hfar : ∀ u ∈ us, ∀ v ∈ vs, u ≠ v →
      ¬ vector3d.mod sqrt ((m.vert u).x - (m.vert v).x) < L.eps) :
    us.foldl
        (fun (acc : vector3d α × Nat) v =>
          ((acc.1 + (L.repulsion_force sqrt rand_range m v vs acc.2).1,
            (L.repulsion_force sqrt rand_range m v vs acc.2).2) : vector3d α × Nat))
        acc
      = (acc.1 + (us.map (fun u => (vs.map (pair_repulsion sqrt L m u)).sum)).sum, acc.2) := by
  induction us generalizing acc with
  | nil => simp
  | cons w ws ih =>
    rw [List.foldl_cons, ih _ (fun u hu => hfar u (List.mem_cons_of_mem _ hu))]
    simp only [layer.repulsion_force,
      layer.repulsion_fold_far sqrt rand_range L m w vs _ (hfar w (List.mem_cons_self _ _)),
      List.map_cons, List.sum_cons, zero_add, add_assoc]

/-- C2. After `apply_displacement(v, dt)` the stored `delta` is
`dx*dt + 0.5*ddx*dt^2` passed through `bound(3)`: its magnitude is at most 3, it
is a positive multiple (factor at most 1) of the unclamped displacement, it is
the unclamped displacement itself unless that was longer than 3, in which case
its magnitude is exactly 3; the new position is the old one plus this `delta`;
`dx` and `ddx` are unchanged. -/
theorem apply_displacement_clamped (sqrt : α → α)
    (hsqrt : ∀ s, 0 ≤ s → 0 ≤ sqrt s ∧ sqrt s * sqrt s = s)
    (L : layer α) (m : Mem α) (v : VId) (dt : α) :
    ((L.apply_displacement sqrt m v dt).vert v).delta
        = vector3d.bound sqrt 3 (raw_delta (m.vert v) dt)
      ∧ vector3d.mod sqrt ((L.apply_displacement sqrt m v dt).vert v).delta ≤ 3
      ∧ (∃ c : α, 0 < c ∧ c ≤ 1 ∧
          ((L.apply_displacement sqrt m v dt).vert v).delta = c • raw_delta (m.vert v) dt)
      ∧ (vector3d.mod sqrt (raw_delta (m.vert v) dt) ≤ 3 →
          ((L.apply_displacement sqrt m v dt).vert v).delta = raw_delta (m.vert v) dt)
      ∧ (3 < vector3d.mod sqrt (raw_delta (m.vert v) dt) →
          vector3d.mod sqrt ((L.apply_displacement sqrt m v dt).vert v).delta = 3)
      ∧ ((L.apply_displacement sqrt m v dt).vert v).x
          = (m.vert v).x + ((L.apply_displacement sqrt m v dt).vert v).delta
      ∧ ((L.apply_displacement sqrt m v dt).vert v).dx = (m.vert v).dx
      ∧ ((L.apply_displacement sqrt m v dt).vert v).ddx = (m.vert v).ddx := by
  have h3 : (0 : α) ≤ 3 := by norm_num
  rw [layer.apply_displacement_vert]
  refine ⟨rfl, vector3d.mod_bound_le sqrt hsqrt 3 h3 _, ?_, ?_, ?_, rfl, rfl, rfl⟩
  · by_cases h : 3 < vector3d.mod sqrt (raw_delta (m.vert v) dt)
    · have hpos : 0 < vector3d.mod sqrt (raw_delta (m.vert v) dt) := lt_of_le_of_lt h3 h
      refine ⟨3 / vector3d.mod sqrt (raw_delta (m.vert v) dt), by positivity, ?_, ?_⟩
      · rw [div_le_one hpos]
        exact h.le
      · simp [vector3d.bound, h]
    · exact ⟨1, one_pos, le_refl 1, by simp [vector3d.bound, h]⟩
  · intro h
    simp [vector3d.bound, not_lt.2 h]
  · intro h
    exact vector3d.mod_bound_of_lt sqrt hsqrt 3 h3 _ h

/-- Instance of C2 over the reals: the real square root meets the hypothesis, and
a vertex moving at speed 10 is displaced by at most 3 in a unit time step. -/
theorem apply_displacement_clamped_witness :
    (∀ s : ℝ, 0 ≤ s → 0 ≤ Real.sqrt s ∧ Real.sqrt s * Real.sqrt s = s)
      ∧ vector3d.mod Real.sqrt
          (((demo_layer ℝ).apply_displacement Real.sqrt (demo_mem ℝ) 0 1).vert 0).delta ≤ 3 :=
  ⟨fun s hs => ⟨Real.sqrt_nonneg s, Real.mul_self_sqrt hs⟩,
    (apply_displacement_clamped Real.sqrt
      (fun s hs => ⟨Real.sqrt_nonneg s, Real.mul_self_sqrt hs⟩)
      (demo_layer ℝ) (demo_mem ℝ) 0 1).2.1⟩

/-- C6. For every vertex list (empty and collapsed ones included) and on every
axis, each vertex coordinate `c` satisfies `min + 10 ≤ c ≤ max - 10` for the
bounds `bounding_box` returns, and `max - min ≥ 20`. -/
theorem bounding_box_margin (m : Mem α) (vs : List VId) :
    (∀ v ∈ vs,
        (bounding_box m vs).x_min + 10 ≤ (m.vert v).x.x
          ∧ (m.vert v).x.x ≤ (bounding_box m vs).x_max - 10
          ∧ (bounding_box m vs).y_min + 10 ≤ (m.vert v).x.y
          ∧ (m.vert v).x.y ≤ (bounding_box m vs).y_max - 10
          ∧ (bounding_box m vs).z_min + 10 ≤ (m.vert v).x.z
          ∧ (m.vert v).x.z ≤ (bounding_box m vs).z_max - 10)
      ∧ 20 ≤ (bounding_box m vs).x_max - (bounding_box m vs).x_min
      ∧ 20 ≤ (bounding_box m vs).y_max - (bounding_box m vs).y_min
      ∧ 20 ≤ (bounding_box m vs).z_max - (bounding_box m vs).z_min := by
  obtain ⟨⟨a1, a2, a3, a4, a5, a6⟩, hin⟩ := bounding_box_fold m vs
    { x_min := -10, x_max := 10, y_min := -10, y_max := 10, z_min := -10, z_max := 10 }
  dsimp only at a1 a2 a3 a4 a5 a6
  simp only [bounding_box]
  refine ⟨?_, by linarith, by linarith, by linarith⟩
  intro v hv
  obtain ⟨b1, b2, b3, b4, b5, b6⟩ := hin v hv
  simp only [sub_add_cancel, add_sub_cancel_right]
  exact ⟨b1, b2, b3, b4, b5, b6⟩

/-- C7. `update_velocity(v, dt)` first forms `a = ddx_ + dilation * coarser.ddx` (or
`a = ddx_` without a coarser vertex) and leaves `ddx_ = a`,
`dx = damping * (old dx + 0.5 * (old ddx + a) * dt)` and `ddx = a`; `x` and `delta`
of `v` are unchanged, and so is every vertex object other than `v`, the coarser
vertex among them. -/
theorem update_velocity_spec (L : layer α) (m : Mem α) (v : VId) (dt : α) :
    ((L.update_velocity m v dt).vert v).ddx_ = coupled_ddx L m v
      ∧ ((L.update_velocity m v dt).vert v).dx
          = L.damping • ((m.vert v).dx
              + dt • ((0.5 : α) • ((m.vert v).ddx + coupled_ddx L m v)))
      ∧ ((L.update_velocity m v dt).vert v).ddx = coupled_ddx L m v
      ∧ ((L.update_velocity m v dt).vert v).x = (m.vert v).x
      ∧ ((L.update_velocity m v dt).vert v).delta = (m.vert v).delta
      ∧ (∀ c, (m.vert v).coarser = some c → c ≠ v →
          (L.update_velocity m v dt).vert c = m.vert c)
      ∧ (∀ u, u ≠ v → (L.update_velocity m v dt).vert u = m.vert u) := by
  rw [layer.update_velocity_vert]
  exact ⟨rfl, rfl, rfl, rfl, rfl,
    fun c _ hc => layer.update_velocity_vert_ne L m dt hc,
    fun u hu => layer.update_velocity_vert_ne L m dt hu⟩

/-- C3, as amended. For `eps > 0` and a vertex list in which no two different
vertices are closer than `eps`, the vector sum over all vertices `v` of
`repulsion_force(v, vs)` is the zero vector, whatever the random source returns;
no random number is drawn, and every pairwise term divides by a positive
number. -/
theorem total_repulsion_zero (sqrt : α → α) (rand_range : Nat → α → α → α) (L : layer α)
    (m : Mem α) (vs : List VId) (rng : Nat) (heps : 0 < L.eps)
    (hfar : ∀ u ∈ vs, ∀ v ∈ vs, u ≠ v →
      ¬ vector3d.mod sqrt ((m.vert u).x - (m.vert v).x) < L.eps) :
    total_repulsion sqrt rand_range L m vs vs rng = (0, rng)
      ∧ ∀ u ∈ vs, ∀ v ∈ vs, u ≠ v →
        0 < (L.eps + vector3d.mod sqrt ((m.vert u).x - (m.vert v).x))
          * (L.eps + vector3d.mod sqrt ((m.vert u).x - (m.vert v).x))
          * (L.eps + vector3d.mod sqrt ((m.vert u).x - (m.vert v).x)) := by
  constructor
  · unfold total_repulsion
    rw [total_repulsion_fold_far sqrt rand_range L m vs vs _ hfar,
      sum_sum_antisymm _ (pair_repulsion_self sqrt L m) (pair_repulsion_antisymm sqrt L m)]
    simp
  · intro u hu v hv huv
    have h := not_lt.1 (hfar u hu v hv huv)
    have hpos : 0 < L.eps + vector3d.mod sqrt ((m.vert u).x - (m.vert v).x) := by linarith
    positivity

/-- Instance of the amended C3 over the reals: two vertices one unit apart with
`eps = 1`. -/
theorem total_repulsion_zero_witness :
    0 < (demo_layer ℝ).eps
      ∧ (∀ u ∈ [0, 1], ∀ v ∈ [0, 1], u ≠ v →
        ¬ vector3d.mod Real.sqrt
            (((mem_at (unit_apart ℝ)).vert u).x - ((mem_at (unit_apart ℝ)).vert v).x)
          < (demo_layer ℝ).eps)
      ∧ total_repulsion Real.sqrt (fun _ _ hi => hi) (demo_layer ℝ) (mem_at (unit_apart ℝ))
          [0, 1] [0, 1] 0 = (0, 0) :=
  have he : 0 < (demo_layer ℝ).eps := by simp [demo_layer]
  have h : ∀ u ∈ [0, 1], ∀ v ∈ [0, 1], u ≠ v →
      ¬ vector3d.mod Real.sqrt
          (((mem_at (unit_apart ℝ)).vert u).x - ((mem_at (unit_apart ℝ)).vert v).x)
        < (demo_layer ℝ).eps := by
    intro u hu v hv huv
    simp only [List.mem_cons, List.mem_singleton, List.not_mem_nil, or_false] at hu hv
    rcases hu with rfl | rfl <;> rcases hv with rfl | rfl <;>
      simp [mem_at, unit_apart, demo_layer, vector3d.mod] at huv ⊢
  ⟨he, h, (total_repulsion_zero Real.sqrt (fun _ _ hi => hi) (demo_layer ℝ)
    (mem_at (unit_apart ℝ)) [0, 1] 0 he h).1⟩

/-- C3 fails as stated. Two vertices at the distinct positions `(0,0,0)` and
`(1,0,0)`, `eps = 2 > 0`, `f0 = 27`, a random source that always returns the upper
end of its range: both vertices are closer than `eps`, both forces are the
perturbation `(2,2,2)`, and the sum is `(4,4,4)`, not zero. -/
theorem total_repulsion_not_zero :
    ((mem_at (unit_apart ℝ)).vert 0).x ≠ ((mem_at (unit_apart ℝ)).vert 1).x
      ∧ 0 < (soft_layer ℝ).eps
      ∧ (total_repulsion Real.sqrt (fun _ _ hi => hi) (soft_layer ℝ) (mem_at (unit_apart ℝ))
          [0, 1] [0, 1] 0).1 = ⟨4, 4, 4⟩
      ∧ (total_repulsion Real.sqrt (fun _ _ hi => hi) (soft_layer ℝ) (mem_at (unit_apart ℝ))
          [0, 1] [0, 1] 0).1 ≠ 0 := by
  have hv : (total_repulsion Real.sqrt (fun _ _ hi => hi) (soft_layer ℝ)
      (mem_at (unit_apart ℝ)) [0, 1] [0, 1] 0).1 = ⟨4, 4, 4⟩ := by
    simp [total_repulsion, layer.repulsion_force, layer.repulsion_step, mem_at, unit_apart,
      soft_layer, vector3d.mod]
    norm_num
    ext <;> simp <;> norm_num
  refine ⟨?_, ?_, hv, ?_⟩
  · simp [mem_at, unit_apart, vector3d.ext_iff]
  · simp [soft_layer]
  · rw [hv]
    simp [vector3d.ext_iff]

/-- C4, as amended. For two distinct vertices `v`, `v2` at identical coordinates,
`eps > 0` and `f0 ≠ 0`, `repulsion_force(v, {v, v2})` skips the self term, divides by
`eps^3`, which is not zero, and returns `f0 / eps^3` times the drawn perturbation
vector, whose components lie in `[-eps, eps]`; the result is non-zero exactly
when the drawn perturbation vector is non-zero. -/
theorem repulsion_force_coincident (sqrt : α → α) (rand_range : Nat → α → α → α)
    (L : layer α) (m : Mem α) (v v2 : VId) (rng : Nat)
    (hsqrt0 : sqrt 0 = 0)
    (hrange : ∀ k lo hi, lo ≤ hi → lo ≤ rand_range k lo hi ∧ rand_range k lo hi ≤ hi)
    (hne : v ≠ v2) (hpos : (m.vert v).x = (m.vert v2).x) (heps : 0 < L.eps)
    (hf0 : L.f0 ≠ 0) :
    L.repulsion_force sqrt rand_range m v [v, v2] rng
        = ((L.f0 / (L.eps * L.eps * L.eps)) • perturbation rand_range L rng, rng + 3)
      ∧ L.eps * L.eps * L.eps ≠ 0
      ∧ (-L.eps ≤ (perturbation rand_range L rng).x ∧ (perturbation rand_range L rng).x ≤ L.eps)
      ∧ (-L.eps ≤ (perturbation rand_range L rng).y ∧ (perturbation rand_range L rng).y ≤ L.eps)
      ∧ (-L.eps ≤ (perturbation rand_range L rng).z ∧ (perturbation rand_range L rng).z ≤ L.eps)
      ∧ ((L.repulsion_force sqrt rand_range m v [v, v2] rng).1 ≠ 0
          ↔ perturbation rand_range L rng ≠ 0) := by
  have he3 : L.eps * L.eps * L.eps ≠ 0 := by positivity
  have hle : -L.eps ≤ L.eps := by linarith
  have hmod : vector3d.mod sqrt ((m.vert v).x - (m.vert v2).x) = 0 := by
    rw [hpos]
    simp [vector3d.mod, hsqrt0]
  have hval : L.repulsion_force sqrt rand_range m v [v, v2] rng
      = ((L.f0 / (L.eps * L.eps * L.eps)) • perturbation rand_range L rng, rng + 3) := by
    simp [layer.repulsion_force, layer.repulsion_step, hne, hmod, heps, perturbation]
  refine ⟨hval, he3, hrange rng _ _ hle, hrange (rng + 1) _ _ hle, hrange (rng + 2) _ _ hle, ?_⟩
  rw [hval]
  simp only [ne_eq, smul_eq_zero, div_eq_zero_iff, hf0, he3, or_self, false_or]

/-- Instance of the amended C4 over the reals: vertices 0 and 1 both at the origin,
`eps = f0 = 1`, a random source that always returns the upper end of its
range. -/
theorem repulsion_force_coincident_witness :
    Real.sqrt 0 = 0
      ∧ (∀ (k : Nat) (lo hi : ℝ), lo ≤ hi →
          lo ≤ (fun (_ : Nat) (_ hi : ℝ) => hi) k lo hi
            ∧ (fun (_ : Nat) (_ hi : ℝ) => hi) k lo hi ≤ hi)
      ∧ (0 : VId) ≠ 1
      ∧ ((mem_at (fun _ => (0 : vector3d ℝ))).vert 0).x
          = ((mem_at (fun _ => (0 : vector3d ℝ))).vert 1).x
      ∧ 0 < (demo_layer ℝ).eps
      ∧ (demo_layer ℝ).f0 ≠ 0
      ∧ (layer.repulsion_force Real.sqrt (fun _ _ hi => hi) (demo_layer ℝ)
            (mem_at (fun _ => (0 : vector3d ℝ))) 0 [0, 1] 0).1 ≠ 0 :=
  have hr : ∀ (k : Nat) (lo hi : ℝ), lo ≤ hi →
      lo ≤ (fun (_ : Nat) (_ hi : ℝ) => hi) k lo hi
        ∧ (fun (_ : Nat) (_ hi : ℝ) => hi) k lo hi ≤ hi :=
    fun _ _ _ h => ⟨h, le_refl _⟩
  have he : 0 < (demo_layer ℝ).eps := by simp [demo_layer]
  have hf : (demo_layer ℝ).f0 ≠ 0 := by simp [demo_layer]
  ⟨Real.sqrt_zero, hr, by decide, rfl, he, hf,
    (repulsion_force_coincident Real.sqrt (fun _ _ hi => hi) (demo_layer ℝ)
      (mem_at (fun _ => (0 : vector3d ℝ))) 0 1 0 Real.sqrt_zero hr (by decide) rfl he
      hf).2.2.2.2.2.2 (by simp [perturbation, demo_layer, vector3d.ext_iff])⟩

/-- C4 fails as stated. Vertices 0 and 1 both at the origin, `eps = 1 > 0`,
`f0 = 1 ≠ 0`, and a random source that returns the midpoint of its range, which
lies in `[-eps, eps]`: the drawn perturbation is `(0,0,0)` and the returned force is
the zero vector. -/
theorem repulsion_force_coincident_zero :
    (0 : VId) ≠ 1
      ∧ ((mem_at (fun _ => (0 : vector3d ℝ))).vert 0).x
          = ((mem_at (fun _ => (0 : vector3d ℝ))).vert 1).x
      ∧ 0 < (demo_layer ℝ).eps
      ∧ (demo_layer ℝ).f0 ≠ 0
      ∧ (∀ (k : Nat) (lo hi : ℝ), lo ≤ hi →
          lo ≤ (fun (_ : Nat) (lo hi : ℝ) => (lo + hi) / 2) k lo hi
            ∧ (fun (_ : Nat) (lo hi : ℝ) => (lo + hi) / 2) k lo hi ≤ hi)
      ∧ (layer.repulsion_force Real.sqrt (fun _ lo hi => (lo + hi) / 2) (demo_layer ℝ)
            (mem_at (fun _ => (0 : vector3d ℝ))) 0 [0, 1] 0).1 = 0 := by
  refine ⟨by decide, rfl, by simp [demo_layer], by simp [demo_layer], ?_, ?_⟩
  · intro k lo hi h
    constructor <;> linarith
  · simp [layer.repulsion_force, layer.repulsion_step, mem_at, demo_layer, vector3d.mod]
    ext <;> simp

theorem only_ddx_.refl_ddx (m : Mem α) : only_ddx_ m m :=
  ⟨rfl, rfl, fun _ => ⟨rfl, rfl, rfl, rfl, rfl, rfl⟩⟩

theorem only_ddx_.trans_ddx {m m' m'' : Mem α} (h : only_ddx_ m m') (h' : only_ddx_ m' m'') :
    only_ddx_ m m'' := by
  obtain ⟨e1, b1, f1⟩ := h
  obtain ⟨e2, b2, f2⟩ := h'
  refine ⟨e2.trans e1, b2.trans b1, fun u => ?_⟩
  obtain ⟨a1, a2, a3, a4, a5, a6⟩ := f1 u
  obtain ⟨c1, c2, c3, c4, c5, c6⟩ := f2 u
  exact ⟨c1.trans a1, c2.trans a2, c3.trans a3, c4.trans a4, c5.trans a5, c6.trans a6⟩

/-- The loop over `v->es` adds up the spring terms of the edges that are not
self-loops. -/
theorem layer.spring_fold (L : layer α) (m : Mem α) (v : VId) (es : List EId)
    (acc : vector3d α) :
    es.foldl (L.spring_step m v) acc
      = acc + (((es.filter (fun e => decide ((m.edg e).a ≠ (m.edg e).b))).map
          (fun e => L.spring_force m v (other_end m v e) e))).sum := by
  induction es generalizing acc with
  | nil => simp
  | cons e es ih =>
    rw [List.foldl_cons, ih]
    by_cases h : (m.edg e).a = (m.edg e).b
    · simp [layer.spring_step, h]
    · simp [layer.spring_step, h, other_end, add_assoc]

/-- The spring terms read positions and edges only. -/
theorem spring_sum_congr (L : layer α) {m m' : Mem α} (h : only_ddx_ m m') (v : VId) :
    spring_sum L m' v = spring_sum L m v := by
  obtain ⟨he, _, hf⟩ := h
  have hx : ∀ u, (m'.vert u).x = (m.vert u).x := fun u => (hf u).1
  have hes : (m'.vert v).es = (m.vert v).es := (hf v).2.2.2.2.1
  simp only [spring_sum, layer.spring_force, other_end, he, hx, hes]

theorem layer.force_step_vert_ne {T : Type} (O : spatial_octree α T) (t : T) (L : layer α)
    (s : Mem α × Nat) {u v : VId} (h : u ≠ v) :
    (L.force_step O t s v).1.vert u = s.1.vert u := by
  simp [layer.force_step, Mem.setVert_vert_ne _ _ h]

theorem layer.force_step_vert {T : Type} (O : spatial_octree α T) (t : T) (L : layer α)
    (s : Mem α × Nat) (v : VId) :
    (L.force_step O t s v).1.vert v =
      { s.1.vert v with
        ddx_ := (O.repulsion_force t s.1 s.2 v L.f0 L.eps).1 + spring_sum L s.1 v } := by
  simp [layer.force_step, layer.spring_fold, spring_sum]

theorem layer.force_step_only_ddx_ {T : Type} (O : spatial_octree α T) (t : T)
    (L : layer α) (s : Mem α × Nat) (v : VId) :
    only_ddx_ s.1 (L.force_step O t s v).1 := by
  refine ⟨rfl, rfl, fun u => ?_⟩
  by_cases h : u = v
  · subst h
    rw [layer.force_step_vert]
    exact ⟨rfl, rfl, rfl, rfl, rfl, rfl⟩
  · rw [layer.force_step_vert_ne O t L s h]
    exact ⟨rfl, rfl, rfl, rfl, rfl, rfl⟩

theorem layer.force_fold_only_ddx_ {T : Type} (O : spatial_octree α T) (t : T)
    (L : layer α) (l : List VId) (s : Mem α × Nat) :
    only_ddx_ s.1 (l.foldl (L.force_step O t) s).1 := by
  induction l generalizing s with
  | nil => exact only_ddx_.refl_ddx _
  | cons v l ih =>
    rw [List.foldl_cons]
    exact (layer.force_step_only_ddx_ O t L s v).trans_ddx (ih _)

theorem layer.force_fold_vert_not_mem {T : Type} (O : spatial_octree α T) (t : T)
    (L : layer α) (l : List VId) (s : Mem α × Nat) (u : VId) (h : u ∉ l) :
    (l.foldl (L.force_step O t) s).1.vert u = s.1.vert u := by
  induction l generalizing s with
  | nil => rfl
  | cons v l ih =>
    rw [List.foldl_cons, ih _ (fun hm => h (List.mem_cons_of_mem _ hm)),
      layer.force_step_vert_ne O t L s (fun e => h (List.mem_cons.2 (Or.inl e)))]

/-- C8. In the force loop of `layer::layout`, run from the state `s` with the tree
`t`: (1) one iteration, for the vertex `v`, stores in `v.ddx_` the tree's
`repulsion_force(v, f0, eps)` plus the sum over the incident edges of `v` that are
not self-loops of `spring_force(v, other endpoint, e)`, and leaves every other
field of `v`, every other vertex object and every edge as it was; (2) over the
whole loop `x`, `dx`, `ddx`, `delta`, the edge list and the coarser link of every
vertex are unchanged, and so are the edges; (3) a vertex that is not in the
layer's list is unchanged altogether; (4) for a vertex `v` of the list, evaluated
last at the position after `pre`, the final `v.ddx_` is the tree's force on `v`
as queried at that point plus the spring sum over the positions the loop started
with. -/
theorem force_loop_spec {T : Type} (O : spatial_octree α T) (t : T) (L : layer α)
    (s : Mem α × Nat) :
    (∀ (s0 : Mem α × Nat) (v : VId),
        (L.force_step O t s0 v).1.vert v =
            { s0.1.vert v with
              ddx_ := (O.repulsion_force t s0.1 s0.2 v L.f0 L.eps).1 + spring_sum L s0.1 v }
          ∧ (∀ u, u ≠ v → (L.force_step O t s0 v).1.vert u = s0.1.vert u)
          ∧ (L.force_step O t s0 v).1.edg = s0.1.edg)
      ∧ (∀ u, ((L.force_loop O t s).1.vert u).x = (s.1.vert u).x
          ∧ ((L.force_loop O t s).1.vert u).dx = (s.1.vert u).dx
          ∧ ((L.force_loop O t s).1.vert u).ddx = (s.1.vert u).ddx
          ∧ ((L.force_loop O t s).1.vert u).delta = (s.1.vert u).delta
          ∧ ((L.force_loop O t s).1.vert u).es = (s.1.vert u).es
          ∧ ((L.force_loop O t s).1.vert u).coarser = (s.1.vert u).coarser)
      ∧ (L.force_loop O t s).1.edg = s.1.edg
      ∧ (∀ u, u ∉ L.vs → (L.force_loop O t s).1.vert u = s.1.vert u)
      ∧ (∀ (pre post : List VId) (v : VId), L.vs = pre ++ v :: post → v ∉ post →
          ((L.force_loop O t s).1.vert v).ddx_
            = (O.repulsion_force t (pre.foldl (L.force_step O t) s).1
                (pre.foldl (L.force_step O t) s).2 v L.f0 L.eps).1
              + spring_sum L s.1 v) := by
  refine ⟨fun s0 v => ⟨layer.force_step_vert O t L s0 v,
      fun u hu => layer.force_step_vert_ne O t L s0 hu, rfl⟩,
    (layer.force_fold_only_ddx_ O t L L.vs s).2.2,
    (layer.force_fold_only_ddx_ O t L L.vs s).1,
    fun u hu => layer.force_fold_vert_not_mem O t L L.vs s u hu, ?_⟩
  intro pre post v hvs hv
  unfold layer.force_loop
  rw [hvs, List.foldl_append, List.foldl_cons,
    layer.force_fold_vert_not_mem O t L post _ v hv, layer.force_step_vert,
    spring_sum_congr L (layer.force_fold_only_ddx_ O t L pre s) v]

/-- A loop whose body writes to the vertex it is called for only leaves the
vertices outside its list alone. -/
theorem foldl_vert_not_mem (f : Mem α → VId → Mem α)
    (hf : ∀ m v u, u ≠ v → (f m v).vert u = m.vert u) (l : List VId) (m : Mem α) (u : VId)
    (h : u ∉ l) : (l.foldl f m).vert u = m.vert u := by
  induction l generalizing m with
  | nil => rfl
  | cons v l ih =>
    rw [List.foldl_cons, ih _ (fun hm => h (List.mem_cons_of_mem _ hm)),
      hf m v u (fun e => h (List.mem_cons.2 (Or.inl e)))]

/-- A loop whose body keeps the edge lists and coarser links keeps them. -/
theorem foldl_links (f : Mem α → VId → Mem α)
    (hf : ∀ m v u, ((f m v).vert u).es = (m.vert u).es
      ∧ ((f m v).vert u).coarser = (m.vert u).coarser)
    (l : List VId) (m : Mem α) (u : VId) :
    ((l.foldl f m).vert u).es = (m.vert u).es
      ∧ ((l.foldl f m).vert u).coarser = (m.vert u).coarser := by
  induction l generalizing m with
  | nil => exact ⟨rfl, rfl⟩
  | cons v l ih =>
    rw [List.foldl_cons]
    exact ⟨(ih _).1.trans (hf m v u).1, (ih _).2.trans (hf m v u).2⟩

theorem layer.apply_displacement_links (sqrt : α → α) (L : layer α) (dt : α) (m : Mem α)
    (v u : VId) :
    ((L.apply_displacement sqrt m v dt).vert u).es = (m.vert u).es
      ∧ ((L.apply_displacement sqrt m v dt).vert u).coarser = (m.vert u).coarser := by
  by_cases h : u = v
  · subst h
    rw [layer.apply_displacement_vert]
    exact ⟨rfl, rfl⟩
  · rw [layer.apply_displacement_vert_ne sqrt L m dt h]
    exact ⟨rfl, rfl⟩

theorem layer.update_velocity_links (L : layer α) (dt : α) (m : Mem α) (v u : VId) :
    ((L.update_velocity m v dt).vert u).es = (m.vert u).es
      ∧ ((L.update_velocity m v dt).vert u).coarser = (m.vert u).coarser := by
  by_cases h : u = v
  · subst h
    rw [layer.update_velocity_vert]
    exact ⟨rfl, rfl⟩
  · rw [layer.update_velocity_vert_ne L m dt h]
    exact ⟨rfl, rfl⟩

/-- Lines 110-141 of `layout` keep the edge list and the coarser link of every
vertex. -/
theorem layer.forces_links {T : Type} (sqrt : α → α) (O : spatial_octree α T) (L : layer α)
    (s : Mem α × Nat) (dt : α) (u : VId) :
    ((L.forces sqrt O s dt).1.vert u).es = (s.1.vert u).es
      ∧ ((L.forces sqrt O s dt).1.vert u).coarser = (s.1.vert u).coarser := by
  have h1 := foldl_links (fun m v => L.apply_displacement sqrt m v dt)
    (layer.apply_displacement_links sqrt L dt) L.vs s.1 u
  have h2 := (layer.force_fold_only_ddx_ O
    (build_tree O (L.vs.foldl (fun m v => L.apply_displacement sqrt m v dt) s.1) L.vs) L L.vs
    (L.vs.foldl (fun m v => L.apply_displacement sqrt m v dt) s.1, s.2)).2.2 u
  exact ⟨h2.2.2.2.2.1.trans h1.1, h2.2.2.2.2.2.trans h1.2⟩

/-- Lines 110-141 of `layout` leave the vertices outside the layer alone. -/
theorem layer.forces_vert_not_mem {T : Type} (sqrt : α → α) (O : spatial_octree α T)
    (L : layer α) (s : Mem α × Nat) (dt : α) (u : VId) (h : u ∉ L.vs) :
    (L.forces sqrt O s dt).1.vert u = s.1.vert u := by
  unfold layer.forces layer.force_loop
  rw [layer.force_fold_vert_not_mem O _ L L.vs _ u h]
  exact foldl_vert_not_mem (fun m v => L.apply_displacement sqrt m v dt)
    (fun m v u hu => layer.apply_displacement_vert_ne sqrt L m dt hu) L.vs s.1 u h

/-- `layout` keeps the edge list and the coarser link of every vertex. -/
theorem layer.layout_links {T : Type} (sqrt : α → α) (O : spatial_octree α T) (L : layer α)
    (s : Mem α × Nat) (dt : α) (u : VId) :
    ((L.layout sqrt O s dt).1.vert u).es = (s.1.vert u).es
      ∧ ((L.layout sqrt O s dt).1.vert u).coarser = (s.1.vert u).coarser := by
  have h1 := foldl_links (fun m v => L.update_velocity m v dt)
    (layer.update_velocity_links L dt) L.vs (L.forces sqrt O s dt).1 u
  have h2 := layer.forces_links sqrt O L s dt u
  exact ⟨h1.1.trans h2.1, h1.2.trans h2.2⟩

/-- The two-level coupling: with the single coarse vertex `c` and the single fine
vertex `f` whose coarser vertex is `c`, after the coarse and then the fine
`layout` the new `f.ddx` is the net force on `f` plus `dilation` times the `ddx`
that the coarse `layout` has left in `c`, and that is the coupled net force of
`c`. -/
theorem two_level_coupling {T : Type} (sqrt : α → α) (O : spatial_octree α T)
    (Lc Lf : layer α) (s : Mem α × Nat) (dt : α) (c f : VId)
    (hc : Lc.vs = [c]) (hf : Lf.vs = [f])
    (hco : (s.1.vert f).coarser = some c) (hne : c ≠ f) :
    ((Lf.layout sqrt O (Lc.layout sqrt O s dt) dt).1.vert f).ddx
        = ((Lf.forces sqrt O (Lc.layout sqrt O s dt) dt).1.vert f).ddx_
          + Lf.dilation • ((Lc.layout sqrt O s dt).1.vert c).ddx
      ∧ ((Lc.layout sqrt O s dt).1.vert c).ddx
        = coupled_ddx Lc (Lc.forces sqrt O s dt).1 c := by
  have hcf : c ∉ Lf.vs := by
    rw [hf]
    simpa using hne
  have hco1 : ((Lf.forces sqrt O (Lc.layout sqrt O s dt) dt).1.vert f).coarser = some c := by
    rw [(layer.forces_links sqrt O Lf _ dt f).2, (layer.layout_links sqrt O Lc s dt f).2, hco]
  constructor
  · simp only [layer.layout, hf, List.foldl_cons, List.foldl_nil]
    rw [layer.update_velocity_vert]
    simp only [coupled_ddx]
    simp only [layer.layout, hf, List.foldl_cons, List.foldl_nil] at hco1
    rw [hco1]
    simp only
    have := layer.forces_vert_not_mem sqrt O Lf (Lc.layout sqrt O s dt) dt c hcf
    simp only [layer.layout, hf, List.foldl_cons, List.foldl_nil] at this
    rw [this]
  · simp only [layer.layout, hc, List.foldl_cons, List.foldl_nil]
    rw [layer.update_velocity_vert]

/-- The net force that lines 110-141 of `layout` store for the vertex of a
single-vertex layer. -/
theorem layer.forces_single {T : Type} (sqrt : α → α) (O : spatial_octree α T) (L : layer α)
    (s : Mem α × Nat) (dt : α) (v : VId) (hv : L.vs = [v]) :
    ((L.forces sqrt O s dt).1.vert v).ddx_
      = (O.repulsion_force (build_tree O (L.apply_displacement sqrt s.1 v dt) [v])
            (L.apply_displacement sqrt s.1 v dt) s.2 v L.f0 L.eps).1
        + spring_sum L (L.apply_displacement sqrt s.1 v dt) v := by
  simp only [layer.forces, layer.force_loop, hv, List.foldl_cons, List.foldl_nil]
  rw [layer.force_step_vert]

/-- The exact index built over a single vertex exerts no force on that vertex. -/
theorem exact_index_single (sqrt : α → α) (rand_range : Nat → α → α → α) (m : Mem α)
    (rng : Nat) (v : VId) (f0 eps : α) :
    (exact_index sqrt rand_range).repulsion_force
        (build_tree (exact_index sqrt rand_range) m [v]) m rng v f0 eps = (0, rng) := by
  simp [exact_index, build_tree, layer.repulsion_force, layer.repulsion_step]

/-- With the exact index, the vertex of a single-vertex layer that has no edges
gets the net force zero. -/
theorem layer.forces_single_free (sqrt : α → α) (rand_range : Nat → α → α → α) (L : layer α)
    (s : Mem α × Nat) (dt : α) (v : VId) (hv : L.vs = [v]) (hes : (s.1.vert v).es = []) :
    ((L.forces sqrt (exact_index sqrt rand_range) s dt).1.vert v).ddx_ = 0 := by
  have h : ((L.apply_displacement sqrt s.1 v dt).vert v).es = [] :=
    (layer.apply_displacement_links sqrt L dt s.1 v v).1.trans hes
  rw [layer.forces_single sqrt _ L s dt v hv, exact_index_single]
  simp [spring_sum, h]

/-- C5, as amended. With a coarse layer holding the single vertex `c`, a fine layer
holding the single vertex `f` with `f.coarser = c` and `dilation = 1`, after the
coarse layer's `layout(dt)` and then the fine layer's `layout(dt)` the new `f.ddx`
is the net force computed on `f` in the fine call (the tree's repulsion plus the
spring sum) plus the `ddx` that the coarse `layout` of this frame has left in
`c`; that `ddx` is the coupled net force the coarse call computed for `c`. -/
theorem two_level_new_ddx {T : Type} (sqrt : α → α) (O : spatial_octree α T)
    (Lc Lf : layer α) (s : Mem α × Nat) (dt : α) (c f : VId)
    (hc : Lc.vs = [c]) (hf : Lf.vs = [f]) (hdil : Lf.dilation = 1)
    (hco : (s.1.vert f).coarser = some c) (hne : c ≠ f) :
    ((Lf.layout sqrt O (Lc.layout sqrt O s dt) dt).1.vert f).ddx
        = ((Lf.forces sqrt O (Lc.layout sqrt O s dt) dt).1.vert f).ddx_
          + ((Lc.layout sqrt O s dt).1.vert c).ddx
      ∧ ((Lf.forces sqrt O (Lc.layout sqrt O s dt) dt).1.vert f).ddx_
        = (O.repulsion_force
              (build_tree O (Lf.apply_displacement sqrt (Lc.layout sqrt O s dt).1 f dt) [f])
              (Lf.apply_displacement sqrt (Lc.layout sqrt O s dt).1 f dt)
              (Lc.layout sqrt O s dt).2 f Lf.f0 Lf.eps).1
          + spring_sum Lf (Lf.apply_displacement sqrt (Lc.layout sqrt O s dt).1 f dt) f
      ∧ ((Lc.layout sqrt O s dt).1.vert c).ddx
        = coupled_ddx Lc (Lc.forces sqrt O s dt).1 c := by
  obtain ⟨h1, h2⟩ := two_level_coupling sqrt O Lc Lf s dt c f hc hf hco hne
  rw [hdil, one_smul] at h1
  exact ⟨h1, layer.forces_single sqrt O Lf _ dt f hf, h2⟩

/-- Instance of the amended C5 over the reals, with the exact index, the coarse
vertex 0 and the fine vertex 1 of `two_level_mem`, and `dt = 1`. -/
theorem two_level_new_ddx_witness :
    (coarse_layer ℝ).vs = [0] ∧ (fine_layer ℝ).vs = [1] ∧ (fine_layer ℝ).dilation = 1
      ∧ ((two_level_mem ℝ).vert 1).coarser = some 0 ∧ (0 : VId) ≠ 1
      ∧ (((fine_layer ℝ).layout Real.sqrt (exact_index Real.sqrt (fun _ _ hi => hi))
            ((coarse_layer ℝ).layout Real.sqrt (exact_index Real.sqrt (fun _ _ hi => hi))
              (two_level_mem ℝ, 0) 1) 1).1.vert 1).ddx
          = (((fine_layer ℝ).forces Real.sqrt (exact_index Real.sqrt (fun _ _ hi => hi))
              ((coarse_layer ℝ).layout Real.sqrt (exact_index Real.sqrt (fun _ _ hi => hi))
                (two_level_mem ℝ, 0) 1) 1).1.vert 1).ddx_
            + (((coarse_layer ℝ).layout Real.sqrt (exact_index Real.sqrt (fun _ _ hi => hi))
                (two_level_mem ℝ, 0) 1).1.vert 0).ddx :=
  ⟨rfl, rfl, rfl, rfl, by decide,
    (two_level_new_ddx Real.sqrt (exact_index Real.sqrt (fun _ _ hi => hi)) (coarse_layer ℝ)
      (fine_layer ℝ) (two_level_mem ℝ, 0) 1 0 1 rfl rfl rfl rfl (by decide)).1⟩

/-- C5 fails as stated. Coarse layer with the single vertex 0 whose `ddx` before
the frame is `A = (1, 0, 0)`, fine layer with the single vertex 1 whose coarser
vertex is 0, `dilation = 1`, `dt = 1`, no edges, the exact index: the coarse
`layout` replaces `c.ddx` by the net force on `c`, which is zero, so after both
calls `f.ddx` is zero, and so is the net force on `f`: `f.ddx` is not the net
force plus `A`. -/
theorem two_level_prior_ddx_dropped :
    ((two_level_mem ℝ).vert 0).ddx = ⟨1, 0, 0⟩
      ∧ ((two_level_mem ℝ).vert 1).coarser = some 0
      ∧ (fine_layer ℝ).dilation = 1
      ∧ (((fine_layer ℝ).forces Real.sqrt (exact_index Real.sqrt (fun _ _ hi => hi))
            ((coarse_layer ℝ).layout Real.sqrt (exact_index Real.sqrt (fun _ _ hi => hi))
              (two_level_mem ℝ, 0) 1) 1).1.vert 1).ddx_ = 0
      ∧ (((fine_layer ℝ).layout Real.sqrt (exact_index Real.sqrt (fun _ _ hi => hi))
            ((coarse_layer ℝ).layout Real.sqrt (exact_index Real.sqrt (fun _ _ hi => hi))
              (two_level_mem ℝ, 0) 1) 1).1.vert 1).ddx = 0
      ∧ (((fine_layer ℝ).layout Real.sqrt (exact_index Real.sqrt (fun _ _ hi => hi))
            ((coarse_layer ℝ).layout Real.sqrt (exact_index Real.sqrt (fun _ _ hi => hi))
              (two_level_mem ℝ, 0) 1) 1).1.vert 1).ddx
          ≠ (((fine_layer ℝ).forces Real.sqrt (exact_index Real.sqrt (fun _ _ hi => hi))
              ((coarse_layer ℝ).layout Real.sqrt (exact_index Real.sqrt (fun _ _ hi => hi))
                (two_level_mem ℝ, 0) 1) 1).1.vert 1).ddx_
            + ((two_level_mem ℝ).vert 0).ddx := by
  obtain ⟨h1, h2⟩ := two_level_coupling Real.sqrt (exact_index Real.sqrt (fun _ _ hi => hi))
    (coarse_layer ℝ) (fine_layer ℝ) (two_level_mem ℝ, 0) 1 0 1 rfl rfl rfl (by decide)
  have hnf : (((fine_layer ℝ).forces Real.sqrt (exact_index Real.sqrt (fun _ _ hi => hi))
      ((coarse_layer ℝ).layout Real.sqrt (exact_index Real.sqrt (fun _ _ hi => hi))
        (two_level_mem ℝ, 0) 1) 1).1.vert 1).ddx_ = 0 :=
    layer.forces_single_free Real.sqrt _ (fine_layer ℝ) _ 1 1 rfl
      ((layer.layout_links Real.sqrt _ (coarse_layer ℝ) (two_level_mem ℝ, 0) 1 1).1.trans rfl)
  have hnc : (((coarse_layer ℝ).forces Real.sqrt (exact_index Real.sqrt (fun _ _ hi => hi))
      (two_level_mem ℝ, 0) 1).1.vert 0).ddx_ = 0 :=
    layer.forces_single_free Real.sqrt _ (coarse_layer ℝ) _ 1 0 rfl rfl
  have hcc : (((coarse_layer ℝ).forces Real.sqrt (exact_index Real.sqrt (fun _ _ hi => hi))
      (two_level_mem ℝ, 0) 1).1.vert 0).coarser = none :=
    (layer.forces_links Real.sqrt _ (coarse_layer ℝ) (two_level_mem ℝ, 0) 1 0).2.trans rfl
  have hc0 : (((coarse_layer ℝ).layout Real.sqrt (exact_index Real.sqrt (fun _ _ hi => hi))
      (two_level_mem ℝ, 0) 1).1.vert 0).ddx = 0 := by
    rw [h2, coupled_ddx, hcc]
    exact hnc
  have hfd : (((fine_layer ℝ).layout Real.sqrt (exact_index Real.sqrt (fun _ _ hi => hi))
      ((coarse_layer ℝ).layout Real.sqrt (exact_index Real.sqrt (fun _ _ hi => hi))
        (two_level_mem ℝ, 0) 1) 1).1.vert 1).ddx = 0 := by
    rw [h1, hnf, hc0]
    simp
  refine ⟨rfl, rfl, rfl, hnf, hfd, ?_⟩
  rw [hfd, hnf]
  show ¬ ((0 : vector3d ℝ) = 0 + (⟨1, 0, 0⟩ : vector3d ℝ))
  simp [vector3d.ext_iff]

/-- The closed form of `spring_force`: only the positions of `v1` and `v2` and the
fields of `e` enter. -/
theorem layer.spring_force_formula (L : layer α) (m : Mem α) (v1 v2 : VId) (e : EId) :
    L.spring_force m v1 v2 e
      = (-L.K * (m.edg e).strength) • ((m.vert v1).x - (m.vert v2).x)
        + orientation_bias m v1 e := by
  have h : (0 : vector3d α) - (m.edg e).strength • (L.K • ((m.vert v1).x - (m.vert v2).x))
      = (-L.K * (m.edg e).strength) • ((m.vert v1).x - (m.vert v2).x) := by
    ext <;> simp <;> ring
  unfold layer.spring_force orientation_bias
  simp only [h]
  split <;> simp

/-- One iteration of the spring loop of the finest layer adds the spring term of
the edge. -/
theorem finest_layer.spring_step_eq (L : layer α) (m : Mem α) (v : VId) (F : vector3d α)
    (e : EId) :
    finest_layer.spring_step L m v F e
      = (finest_spring_term L m v e).map (fun t => F + t) := by
  unfold finest_layer.spring_step finest_spring_term
  by_cases hs : (m.edg e).styled = true ∧ (m.edg e).spline = true
  · obtain ⟨h1, h2⟩ := hs
    cases hv : (m.edg e).vspline <;>
      simp [h1, h2, hv, layer.spring_force_formula]
  · have hs' : ((m.edg e).styled && (m.edg e).spline) = false := by
      cases h1 : (m.edg e).styled <;> cases h2 : (m.edg e).spline <;> simp_all
    by_cases hab : (m.edg e).a = (m.edg e).b
    · simp [hs, hs', hab]
    · simp [hs, hs', hab, other_end]

/-- The spring loop of the finest layer adds up the spring terms, when each of
them is defined. -/
theorem finest_layer.spring_foldlM (L : layer α) (m : Mem α) (v : VId) (es : List EId)
    (F : vector3d α) (ts : List (vector3d α))
    (h : es.map (finest_spring_term L m v) = ts.map some) :
    es.foldlM (finest_layer.spring_step L m v) F = some (F + ts.sum) := by
  induction es generalizing F ts with
  | nil =>
    cases ts with
    | nil => simp
    | cons t ts => simp at h
  | cons e es ih =>
    cases ts with
    | nil => simp at h
    | cons t ts =>
      simp only [List.map_cons, List.cons.injEq] at h
      obtain ⟨h1, h2⟩ := h
      rw [List.foldlM_cons, finest_layer.spring_step_eq, h1]
      simp only [Option.map_some', Option.bind_eq_bind, Option.some_bind]
      rw [ih _ _ h2, List.sum_cons, add_assoc]

/-- The spring loop of `finest_layer::layout` in an arbitrary memory, for the vertex
`v` and an incident edge `e`: (1) every iteration adds the spring term of the edge to the
accumulated force; (2) for an edge flagged spline whose centroid is `c` the term
added is `spring_force(v, c, e)`, which is
`-K * e.strength * (v.x - c.x)` plus the orientation bias, an expression in which
the other real endpoint does not occur, also when the edge is a self-loop;
(3) for an edge that is not flagged spline and not a self-loop the term is
`spring_force(v, other endpoint, e)`; (4) over the whole incident list the loop
yields the sum of the terms, and that sum added to the tree's repulsion is what
the force loop stores in `v.ddx_`. -/
theorem finest_spring_spec {T : Type} (O : spatial_octree α T) (t : T) (L : layer α)
    (m : Mem α) (v : VId) (e : EId) :
    (∀ F, finest_layer.spring_step L m v F e
        = (finest_spring_term L m v e).map (fun t => F + t))
      ∧ (∀ F c, (m.edg e).styled = true → (m.edg e).spline = true →
          (m.edg e).vspline = some c →
          finest_layer.spring_step L m v F e = some (F + L.spring_force m v c e)
            ∧ L.spring_force m v c e
              = (-L.K * (m.edg e).strength) • ((m.vert v).x - (m.vert c).x)
                + orientation_bias m v e)
      ∧ (∀ F, ¬ ((m.edg e).styled = true ∧ (m.edg e).spline = true) →
          (m.edg e).a ≠ (m.edg e).b →
          finest_layer.spring_step L m v F e
            = some (F + L.spring_force m v (other_end m v e) e))
      ∧ (∀ (es : List EId) (F : vector3d α) (ts : List (vector3d α)),
          es.map (finest_spring_term L m v) = ts.map some →
          es.foldlM (finest_layer.spring_step L m v) F = some (F + ts.sum))
      ∧ (∀ (rng : Nat) (ts : List (vector3d α)),
          (m.vert v).es.map (finest_spring_term L m v) = ts.map some →
          finest_layer.force_step O t L (m, rng) v
            = some (m.setVert v
                { m.vert v with
                  ddx_ := (O.repulsion_force t m rng v L.f0 L.eps).1 + ts.sum },
              (O.repulsion_force t m rng v L.f0 L.eps).2)) := by
  refine ⟨fun F => finest_layer.spring_step_eq L m v F e, ?_, ?_,
    fun es F ts h => finest_layer.spring_foldlM L m v es F ts h, ?_⟩
  · intro F c h1 h2 h3
    refine ⟨?_, layer.spring_force_formula L m v c e⟩
    rw [finest_layer.spring_step_eq, layer.spring_force_formula]
    simp [finest_spring_term, h1, h2, h3]
  · intro F hs hab
    rw [finest_layer.spring_step_eq]
    simp [finest_spring_term, hs, hab]
  · intro rng ts h
    simp only [finest_layer.force_step]
    rw [finest_layer.spring_foldlM L m v _ 0 ts h, zero_add]

theorem extends_mem.refl_mem (m : Mem α) : extends_mem m m :=
  ⟨le_refl _, fun _ _ => rfl, fun _ => rfl, fun _ _ h => h, fun _ _ h => Or.inl h⟩

theorem extends_mem.trans_mem {m M N : Mem α} (h : extends_mem m M) (h' : extends_mem M N) :
    extends_mem m N := by
  obtain ⟨a1, a2, a3, a4, a5⟩ := h
  obtain ⟨b1, b2, b3, b4, b5⟩ := h'
  refine ⟨a1.trans b1, fun v hv => (b2 v (lt_of_lt_of_le hv a1)).trans (a2 v hv), ?_,
    fun e c hc => b4 e c (a4 e c hc), ?_⟩
  · intro e
    rw [b3 e, a3 e]
  · intro e c hc
    rcases b5 e c hc with h1 | ⟨h1, h2, h3⟩
    · rcases a5 e c h1 with h4 | ⟨h4, h5, h6⟩
      · exact Or.inl h4
      · exact Or.inr ⟨h4, h5, lt_of_lt_of_le h6 b1⟩
    · refine Or.inr ⟨?_, a1.trans h2, h3⟩
      cases hm : (m.edg e).vspline with
      | none => rfl
      | some d =>
        rw [a4 e d hm] at h1
        exact absurd h1 (by simp)

/-- Creating the centroid of an edge without one extends the memory. -/
theorem set_spline_extends (init : Mem α → EId → vertex α) (m : Mem α) (e : EId)
    (h : (m.edg e).vspline = none) : extends_mem m (set_spline init m e) := by
  refine ⟨Nat.le_succ _, ?_, ?_, ?_, ?_⟩
  · intro v hv
    simp [set_spline, Function.update_noteq (Nat.ne_of_lt hv)]
  · intro e'
    by_cases he : e' = e
    · subst he
      simp [set_spline]
    · simp [set_spline, Function.update_noteq he]
  · intro e' c hc
    have he : e' ≠ e := by
      rintro rfl
      rw [h] at hc
      exact absurd hc (by simp)
    simpa [set_spline, Function.update_noteq he] using hc
  · intro e' c hc
    by_cases he : e' = e
    · subst he
      have : m.brk = c := by simpa [set_spline] using hc
      exact Or.inr ⟨h, this.le, by simp [set_spline, ← this]⟩
    · exact Or.inl (by simpa [set_spline, Function.update_noteq he] using hc)

/-- The test of the inner loop reads fields that creating centroids leaves alone. -/
theorem extends_mem.test_eq {m M : Mem α} (h : extends_mem m M) (v : VId) (e : EId) :
    ((M.edg e).spline = true ∧ (M.edg e).a = v)
      ↔ ((m.edg e).spline = true ∧ (m.edg e).a = v) := by
  rw [h.2.2.1 e]

/-- One iteration of the inner loop: the memory is extended, `this->vs` is kept,
and for an edge that passes the test its centroid, now set, is appended. -/
theorem finest_layer.collect_step_spec (init : Mem α → EId → vertex α) (v : VId)
    (s : working_set α) (e : EId) :
    extends_mem s.mem (finest_layer.collect_step init v s e).mem
      ∧ (finest_layer.collect_step init v s e).this_vs = s.this_vs
      ∧ ((finest_layer.collect_step init v s e).vs.map some
          = s.vs.map some
            ++ (if (s.mem.edg e).spline = true ∧ (s.mem.edg e).a = v then
                [((finest_layer.collect_step init v s e).mem.edg e).vspline] else []))
      ∧ (((s.mem.edg e).spline = true ∧ (s.mem.edg e).a = v) →
          ((finest_layer.collect_step init v s e).mem.edg e).vspline ≠ none) := by
  unfold finest_layer.collect_step
  by_cases hc : (s.mem.edg e).spline = true ∧ (s.mem.edg e).a = v
  · cases hv : (s.mem.edg e).vspline with
    | none =>
      simp only [hc, and_self, if_true, hv]
      refine ⟨set_spline_extends init s.mem e hv, trivial, ?_, ?_⟩
      · simp [set_spline]
      · intro _
        simp [set_spline]
    | some c =>
      simp only [hc, and_self, if_true, hv]
      refine ⟨extends_mem.refl_mem _, trivial, ?_, ?_⟩
      · simp [hv]
      · intro _
        simp [hv]
  · simp only [hc, if_false]
    exact ⟨extends_mem.refl_mem _, trivial, by simp, fun h => h.elim⟩

/-- A centroid that is set stays as it is when the memory is extended. -/
theorem extends_mem.vspline_keep {m M : Mem α} (h : extends_mem m M) (e : EId)
    (he : (m.edg e).vspline ≠ none) : (M.edg e).vspline = (m.edg e).vspline := by
  cases hv : (m.edg e).vspline with
  | none => exact absurd hv he
  | some c => exact h.2.2.2.1 e c hv

/-- The inner loop of lines 162-171 over the edges `es` of the vertex `v`. -/
theorem finest_layer.collect_inner (init : Mem α → EId → vertex α) (v : VId)
    (es : List EId) (s : working_set α) :
    extends_mem s.mem (es.foldl (finest_layer.collect_step init v) s).mem
      ∧ (es.foldl (finest_layer.collect_step init v) s).this_vs = s.this_vs
      ∧ (es.foldl (finest_layer.collect_step init v) s).vs.map some
          = s.vs.map some
            ++ (es.filter
                (fun e => decide ((s.mem.edg e).spline = true ∧ (s.mem.edg e).a = v))).map
              (fun e => ((es.foldl (finest_layer.collect_step init v) s).mem.edg e).vspline)
      ∧ (∀ e ∈ es.filter
            (fun e => decide ((s.mem.edg e).spline = true ∧ (s.mem.edg e).a = v)),
          ((es.foldl (finest_layer.collect_step init v) s).mem.edg e).vspline ≠ none) := by
  induction es generalizing s with
  | nil => exact ⟨extends_mem.refl_mem _, rfl, by simp, by simp⟩
  | cons e es ih =>
    obtain ⟨x1, x2, x3, x4⟩ := finest_layer.collect_step_spec init v s e
    obtain ⟨y1, y2, y3, y4⟩ := ih (finest_layer.collect_step init v s e)
    have hfun : (fun e' => decide
          (((finest_layer.collect_step init v s e).mem.edg e').spline = true
            ∧ ((finest_layer.collect_step init v s e).mem.edg e').a = v))
        = fun e' => decide ((s.mem.edg e').spline = true ∧ (s.mem.edg e').a = v) := by
      funext e'
      exact decide_eq_decide.2 (x1.test_eq v e')
    rw [hfun] at y3 y4
    simp only [List.foldl_cons]
    refine ⟨x1.trans_mem y1, y2.trans x2, ?_, ?_⟩
    · rw [y3, x3]
      by_cases hc : (s.mem.edg e).spline = true ∧ (s.mem.edg e).a = v
      · have hk := y1.vspline_keep e (x4 hc)
        simp [List.filter_cons, hc, hk]
      · simp [List.filter_cons, hc]
    · intro e' he'
      by_cases hc : (s.mem.edg e).spline = true ∧ (s.mem.edg e).a = v
      · rw [List.filter_cons, if_pos (by simpa using hc)] at he'
        rcases List.mem_cons.1 he' with rfl | h
        · rw [y1.vspline_keep e' (x4 hc)]
          exact x4 hc
        · exact y4 e' h
      · rw [List.filter_cons, if_neg (by simpa using hc)] at he'
        exact y4 e' he'

/-- The nested loop of lines 162-171 over the vertices `l`, all of them objects
that exist in the memory `m` the loop started from. -/
theorem finest_layer.collect_outer (init : Mem α → EId → vertex α) (m : Mem α)
    (l : List VId) (s : working_set α) (hs : extends_mem m s.mem)
    (hl : ∀ v ∈ l, v < m.brk) :
    extends_mem s.mem
        (l.foldl
          (fun s v => (s.mem.vert v).es.foldl (finest_layer.collect_step init v) s) s).mem
      ∧ (l.foldl
          (fun s v => (s.mem.vert v).es.foldl (finest_layer.collect_step init v) s)
          s).this_vs = s.this_vs
      ∧ (l.foldl
          (fun s v => (s.mem.vert v).es.foldl (finest_layer.collect_step init v) s)
          s).vs.map some
          = s.vs.map some
            ++ (l.flatMap (spline_occurrences m)).map
              (fun e => ((l.foldl
                (fun s v => (s.mem.vert v).es.foldl (finest_layer.collect_step init v) s)
                s).mem.edg e).vspline)
      ∧ (∀ e ∈ l.flatMap (spline_occurrences m),
          ((l.foldl
            (fun s v => (s.mem.vert v).es.foldl (finest_layer.collect_step init v) s)
            s).mem.edg e).vspline ≠ none) := by
  induction l generalizing s with
  | nil => exact ⟨extends_mem.refl_mem _, rfl, by simp, by simp⟩
  | cons v l ih =>
    obtain ⟨x1, x2, x3, x4⟩ := finest_layer.collect_inner init v (s.mem.vert v).es s
    have hv : v < m.brk := hl v (List.mem_cons_self _ _)
    have hocc : (s.mem.vert v).es.filter
          (fun e => decide ((s.mem.edg e).spline = true ∧ (s.mem.edg e).a = v))
        = spline_occurrences m v := by
      have hfun : (fun e => decide ((s.mem.edg e).spline = true ∧ (s.mem.edg e).a = v))
          = fun e => decide ((m.edg e).spline = true ∧ (m.edg e).a = v) := by
        funext e
        exact decide_eq_decide.2 (hs.test_eq v e)
      rw [hfun, hs.2.1 v hv, spline_occurrences]
    rw [hocc] at x3 x4
    obtain ⟨y1, y2, y3, y4⟩ := ih ((s.mem.vert v).es.foldl (finest_layer.collect_step init v) s)
      (hs.trans_mem x1) (fun u hu => hl u (List.mem_cons_of_mem _ hu))
    simp only [List.foldl_cons]
    refine ⟨x1.trans_mem y1, y2.trans x2, ?_, ?_⟩
    · rw [y3, x3, List.flatMap_cons, List.map_append, List.append_assoc]
      congr 2
      exact List.map_congr_left (fun e he => (y1.vspline_keep e (x4 e he)).symm)
    · intro e he
      rw [List.flatMap_cons, List.mem_append] at he
      rcases he with h | h
      · rw [y1.vspline_keep e (x4 e h)]
        exact x4 e h
      · exact y4 e h

/-- C10. For a finest layer whose real vertices are objects of the memory, the
working list built by lines 161-171 of `finest_layer::layout` is the layer's
vertex list, in order, followed by one centroid for each occurrence of an edge
flagged spline in the incident list of its canonical endpoint `e.a`, in the
order of the occurrences; each of these centroids is the edge's `vspline`, which
is the one the edge had when it had one, and otherwise a vertex object created
in this call; the real vertex objects are as they were, and the layer's own
list `this->vs` is the same after the loop as before. -/
theorem working_vs_spec (init : Mem α → EId → vertex α) (L : layer α) (m : Mem α)
    (hfresh : ∀ v ∈ L.vs, v < m.brk) :
    (finest_layer.working_vs init L m).vs.map some
        = L.vs.map some
          ++ (L.vs.flatMap (spline_occurrences m)).map
            (fun e => ((finest_layer.working_vs init L m).mem.edg e).vspline)
      ∧ (∀ e ∈ L.vs.flatMap (spline_occurrences m),
          ((finest_layer.working_vs init L m).mem.edg e).vspline ≠ none)
      ∧ (finest_layer.working_vs init L m).vs.length
          = L.vs.length + (L.vs.flatMap (spline_occurrences m)).length
      ∧ (∀ e c, (m.edg e).vspline = some c →
          ((finest_layer.working_vs init L m).mem.edg e).vspline = some c)
      ∧ (∀ e c, ((finest_layer.working_vs init L m).mem.edg e).vspline = some c →
          (m.edg e).vspline = some c
            ∨ ((m.edg e).vspline = none ∧ m.brk ≤ c
              ∧ c < (finest_layer.working_vs init L m).mem.brk))
      ∧ (∀ v, v < m.brk → (finest_layer.working_vs init L m).mem.vert v = m.vert v)
      ∧ (finest_layer.working_vs init L m).this_vs = L.vs := by
  obtain ⟨x1, x2, x3, x4⟩ := finest_layer.collect_outer init m L.vs
    { mem := m, this_vs := L.vs, vs := L.vs } (extends_mem.refl_mem m) hfresh
  refine ⟨x3, x4, ?_, x1.2.2.2.1, x1.2.2.2.2, x1.2.1, x2⟩
  have h := congrArg List.length x3
  simpa using h

/-- Instance of C10 over the rationals: the real vertices 0 and 1 and their spline
edge 0, which has no centroid yet; the working list is `[0, 1, 2]`, where 2 is the
centroid created for the one occurrence of the edge at its endpoint 0. -/
theorem working_vs_spec_witness :
    (∀ v ∈ (demo_layer ℚ).vs, v < (spline_mem ℚ).brk)
      ∧ (finest_layer.working_vs (centroid_init ℚ) (demo_layer ℚ) (spline_mem ℚ)).vs.length
          = (demo_layer ℚ).vs.length
            + ((demo_layer ℚ).vs.flatMap (spline_occurrences (spline_mem ℚ))).length
      ∧ (finest_layer.working_vs (centroid_init ℚ) (demo_layer ℚ) (spline_mem ℚ)).vs
          = [0, 1, 2] :=
  ⟨by decide,
    (working_vs_spec (centroid_init ℚ) (demo_layer ℚ) (spline_mem ℚ) (by decide)).2.2.1,
    by decide⟩

/-- Every running extent of the loop of `bounding_box` is the value it started
with or a coordinate of a vertex of the list. -/
theorem bounding_box_fold_attained (m : Mem α) (vs : List VId) (acc : bbox α) :
    ((vs.foldl (bounding_box_step m) acc).x_min = acc.x_min
        ∨ ∃ v ∈ vs, (vs.foldl (bounding_box_step m) acc).x_min = (m.vert v).x.x)
      ∧ ((vs.foldl (bounding_box_step m) acc).x_max = acc.x_max
        ∨ ∃ v ∈ vs, (vs.foldl (bounding_box_step m) acc).x_max = (m.vert v).x.x)
      ∧ ((vs.foldl (bounding_box_step m) acc).y_min = acc.y_min
        ∨ ∃ v ∈ vs, (vs.foldl (bounding_box_step m) acc).y_min = (m.vert v).x.y)
      ∧ ((vs.foldl (bounding_box_step m) acc).y_max = acc.y_max
        ∨ ∃ v ∈ vs, (vs.foldl (bounding_box_step m) acc).y_max = (m.vert v).x.y)
      ∧ ((vs.foldl (bounding_box_step m) acc).z_min = acc.z_min
        ∨ ∃ v ∈ vs, (vs.foldl (bounding_box_step m) acc).z_min = (m.vert v).x.z)
      ∧ ((vs.foldl (bounding_box_step m) acc).z_max = acc.z_max
        ∨ ∃ v ∈ vs, (vs.foldl (bounding_box_step m) acc).z_max = (m.vert v).x.z) := by
  induction vs generalizing acc with
  | nil => simp
  | cons w ws ih =>
    have lift : ∀ (r a p : α) (c : VId → α), c w = p →
        (r = a ∨ r = p) → (r = a ∨ ∃ v ∈ w :: ws, r = c v) := by
      intro r a p c hp h
      rcases h with h | h
      · exact Or.inl h
      · exact Or.inr ⟨w, List.mem_cons_self _ _, h.trans hp.symm⟩
    have keep : ∀ (r : α) (c : VId → α), (∃ v ∈ ws, r = c v) → ∃ v ∈ w :: ws, r = c v :=
      fun r c ⟨v, hv, h⟩ => ⟨v, List.mem_cons_of_mem _ hv, h⟩
    obtain ⟨a1, a2, a3, a4, a5, a6⟩ := ih (bounding_box_step m acc w)
    simp only [List.foldl_cons]
    refine ⟨?_, ?_, ?_, ?_, ?_, ?_⟩
    · rcases a1 with h | h
      · refine lift _ _ _ (fun v => (m.vert v).x.x) rfl ?_
        rw [h]
        exact min_choice _ _
      · exact Or.inr (keep _ _ h)
    · rcases a2 with h | h
      · refine lift _ _ _ (fun v => (m.vert v).x.x) rfl ?_
        rw [h]
        exact max_choice _ _
      · exact Or.inr (keep _ _ h)
    · rcases a3 with h | h
      · refine lift _ _ _ (fun v => (m.vert v).x.y) rfl ?_
        rw [h]
        exact min_choice _ _
      · exact Or.inr (keep _ _ h)
    · rcases a4 with h | h
      · refine lift _ _ _ (fun v => (m.vert v).x.y) rfl ?_
        rw [h]
        exact max_choice _ _
      · exact Or.inr (keep _ _ h)
    · rcases a5 with h | h
      · refine lift _ _ _ (fun v => (m.vert v).x.z) rfl ?_
        rw [h]
        exact min_choice _ _
      · exact Or.inr (keep _ _ h)
    · rcases a6 with h | h
      · refine lift _ _ _ (fun v => (m.vert v).x.z) rfl ?_
        rw [h]
        exact max_choice _ _
      · exact Or.inr (keep _ _ h)

/-- A running minimum that lies below its start and below every coordinate, and
is one of them, is the smaller of the start and the smallest coordinate. -/
theorem running_min_eq (c : VId → α) (vs : List VId) (a r lo : α)
    (hlo : is_smallest c vs lo) (h1 : r ≤ a) (h2 : ∀ v ∈ vs, r ≤ c v)
    (h3 : r = a ∨ ∃ v ∈ vs, r = c v) : r = min a lo := by
  obtain ⟨⟨u, hu, hcu⟩, hall⟩ := hlo
  refine le_antisymm (le_min h1 (hcu ▸ h2 u hu)) ?_
  rcases h3 with h | ⟨v, hv, h⟩
  · rw [h]
    exact min_le_left _ _
  · rw [h]
    exact (min_le_right _ _).trans (hall v hv)

/-- The mirror image of `running_min_eq` for a running maximum. -/
theorem running_max_eq (c : VId → α) (vs : List VId) (a r hi : α)
    (hhi : is_largest c vs hi) (h1 : a ≤ r) (h2 : ∀ v ∈ vs, c v ≤ r)
    (h3 : r = a ∨ ∃ v ∈ vs, r = c v) : r = max a hi := by
  obtain ⟨⟨u, hu, hcu⟩, hall⟩ := hhi
  refine le_antisymm ?_ (max_le h1 (hcu ▸ h2 u hu))
  rcases h3 with h | ⟨v, hv, h⟩
  · rw [h]
    exact le_max_left _ _
  · rw [h]
    exact (hall v hv).trans (le_max_right _ _)

/-- C11, as amended. For a vertex list with smallest and largest observed
coordinates `lo` and `hi` on an axis, `bounding_box` returns on that axis
`min(-10, lo) - 10` as the minimum and `max(10, hi) + 10` as the maximum: the
minimum is exactly `lo - 10` when `lo ≤ -10` and is `-20` otherwise, the maximum
is exactly `hi + 10` when `10 ≤ hi` and is `20` otherwise, whatever the width
`hi - lo` of the set. -/
theorem bounding_box_extents (m : Mem α) (vs : List VId) (xlo xhi ylo yhi zlo zhi : α)
    (hx1 : is_smallest (fun v => (m.vert v).x.x) vs xlo)
    (hx2 : is_largest (fun v => (m.vert v).x.x) vs xhi)
    (hy1 : is_smallest (fun v => (m.vert v).x.y) vs ylo)
    (hy2 : is_largest (fun v => (m.vert v).x.y) vs yhi)
    (hz1 : is_smallest (fun v => (m.vert v).x.z) vs zlo)
    (hz2 : is_largest (fun v => (m.vert v).x.z) vs zhi) :
    ((bounding_box m vs).x_min = min (-10) xlo - 10
        ∧ (bounding_box m vs).x_max = max 10 xhi + 10
        ∧ (xlo ≤ -10 → (bounding_box m vs).x_min = xlo - 10)
        ∧ (-10 < xlo → (bounding_box m vs).x_min = -20)
        ∧ (10 ≤ xhi → (bounding_box m vs).x_max = xhi + 10)
        ∧ (xhi < 10 → (bounding_box m vs).x_max = 20))
      ∧ ((bounding_box m vs).y_min = min (-10) ylo - 10
        ∧ (bounding_box m vs).y_max = max 10 yhi + 10
        ∧ (ylo ≤ -10 → (bounding_box m vs).y_min = ylo - 10)
        ∧ (-10 < ylo → (bounding_box m vs).y_min = -20)
        ∧ (10 ≤ yhi → (bounding_box m vs).y_max = yhi + 10)
        ∧ (yhi < 10 → (bounding_box m vs).y_max = 20))
      ∧ ((bounding_box m vs).z_min = min (-10) zlo - 10
        ∧ (bounding_box m vs).z_max = max 10 zhi + 10
        ∧ (zlo ≤ -10 → (bounding_box m vs).z_min = zlo - 10)
        ∧ (-10 < zlo → (bounding_box m vs).z_min = -20)
        ∧ (10 ≤ zhi → (bounding_box m vs).z_max = zhi + 10)
        ∧ (zhi < 10 → (bounding_box m vs).z_max = 20)) := by
  obtain ⟨⟨a1, a2, a3, a4, a5, a6⟩, hin⟩ := bounding_box_fold m vs
    { x_min := -10, x_max := 10, y_min := -10, y_max := 10, z_min := -10, z_max := 10 }
  obtain ⟨b1, b2, b3, b4, b5, b6⟩ := bounding_box_fold_attained m vs
    { x_min := -10, x_max := 10, y_min := -10, y_max := 10, z_min := -10, z_max := 10 }
  dsimp only at a1 a2 a3 a4 a5 a6 b1 b2 b3 b4 b5 b6
  have ex1 := running_min_eq _ vs _ _ xlo hx1 a1 (fun v hv => (hin v hv).1) b1
  have ex2 := running_max_eq _ vs _ _ xhi hx2 a2 (fun v hv => (hin v hv).2.1) b2
  have ey1 := running_min_eq _ vs _ _ ylo hy1 a3 (fun v hv => (hin v hv).2.2.1) b3
  have ey2 := running_max_eq _ vs _ _ yhi hy2 a4 (fun v hv => (hin v hv).2.2.2.1) b4
  have ez1 := running_min_eq _ vs _ _ zlo hz1 a5 (fun v hv => (hin v hv).2.2.2.2.1) b5
  have ez2 := running_max_eq _ vs _ _ zhi hz2 a6 (fun v hv => (hin v hv).2.2.2.2.2) b6
  have low : ∀ r lo : α, r = min (-10) lo →
      r - 10 = min (-10) lo - 10 ∧ (lo ≤ -10 → r - 10 = lo - 10)
        ∧ (-10 < lo → r - 10 = -20) := by
    intro r lo h
    refine ⟨by rw [h], fun hle => by rw [h, min_eq_right hle], fun hlt => ?_⟩
    rw [h, min_eq_left hlt.le]
    norm_num
  have high : ∀ r hi : α, r = max 10 hi →
      r + 10 = max 10 hi + 10 ∧ (10 ≤ hi → r + 10 = hi + 10)
        ∧ (hi < 10 → r + 10 = 20) := by
    intro r hi h
    refine ⟨by rw [h], fun hle => by rw [h, max_eq_right hle], fun hlt => ?_⟩
    rw [h, max_eq_left hlt.le]
    norm_num
  simp only [bounding_box]
  exact ⟨⟨(low _ _ ex1).1, (high _ _ ex2).1, (low _ _ ex1).2.1, (low _ _ ex1).2.2,
      (high _ _ ex2).2.1, (high _ _ ex2).2.2⟩,
    ⟨(low _ _ ey1).1, (high _ _ ey2).1, (low _ _ ey1).2.1, (low _ _ ey1).2.2,
      (high _ _ ey2).2.1, (high _ _ ey2).2.2⟩,
    ⟨(low _ _ ez1).1, (high _ _ ez2).1, (low _ _ ez1).2.1, (low _ _ ez1).2.2,
      (high _ _ ez2).2.1, (high _ _ ez2).2.2⟩⟩

/-- The observed coordinates of the vertices 0 and 1 placed by `off_centre`: 100 and
130 on the x axis, 0 on the other two. -/
theorem off_centre_extremes :
    is_smallest (fun v => ((mem_at (off_centre ℚ)).vert v).x.x) [0, 1] 100
      ∧ is_largest (fun v => ((mem_at (off_centre ℚ)).vert v).x.x) [0, 1] 130
      ∧ is_smallest (fun v => ((mem_at (off_centre ℚ)).vert v).x.y) [0, 1] 0
      ∧ is_largest (fun v => ((mem_at (off_centre ℚ)).vert v).x.y) [0, 1] 0
      ∧ is_smallest (fun v => ((mem_at (off_centre ℚ)).vert v).x.z) [0, 1] 0
      ∧ is_largest (fun v => ((mem_at (off_centre ℚ)).vert v).x.z) [0, 1] 0 := by
  refine ⟨⟨⟨0, by simp, by simp [mem_at, off_centre]⟩, ?_⟩,
    ⟨⟨1, by simp, by simp [mem_at, off_centre]⟩, ?_⟩,
    ⟨⟨0, by simp, by simp [mem_at, off_centre]⟩, ?_⟩,
    ⟨⟨0, by simp, by simp [mem_at, off_centre]⟩, ?_⟩,
    ⟨⟨0, by simp, by simp [mem_at, off_centre]⟩, ?_⟩,
    ⟨⟨0, by simp, by simp [mem_at, off_centre]⟩, ?_⟩⟩ <;>
  · intro v hv
    simp only [List.mem_cons, List.mem_singleton, List.not_mem_nil, or_false] at hv
    rcases hv with rfl | rfl <;> simp [mem_at, off_centre] <;> norm_num

/-- Instance of the amended C11 over the rationals: vertices at `x = 100` and
`x = 130`; the maximum on the x axis is `130 + 10`, the minimum is `-20`. -/
theorem bounding_box_extents_witness :
    (is_smallest (fun v => ((mem_at (off_centre ℚ)).vert v).x.x) [0, 1] 100
      ∧ is_largest (fun v => ((mem_at (off_centre ℚ)).vert v).x.x) [0, 1] 130
      ∧ is_smallest (fun v => ((mem_at (off_centre ℚ)).vert v).x.y) [0, 1] 0
      ∧ is_largest (fun v => ((mem_at (off_centre ℚ)).vert v).x.y) [0, 1] 0
      ∧ is_smallest (fun v => ((mem_at (off_centre ℚ)).vert v).x.z) [0, 1] 0
      ∧ is_largest (fun v => ((mem_at (off_centre ℚ)).vert v).x.z) [0, 1] 0)
      ∧ (bounding_box (mem_at (off_centre ℚ)) [0, 1]).x_max = 130 + 10
      ∧ (bounding_box (mem_at (off_centre ℚ)) [0, 1]).x_min = -20 :=
  ⟨off_centre_extremes,
    (bounding_box_extents (mem_at (off_centre ℚ)) [0, 1] 100 130 0 0 0 0
      off_centre_extremes.1 off_centre_extremes.2.1 off_centre_extremes.2.2.1
      off_centre_extremes.2.2.2.1 off_centre_extremes.2.2.2.2.1
      off_centre_extremes.2.2.2.2.2).1.2.2.2.2.1 (by norm_num),
    (bounding_box_extents (mem_at (off_centre ℚ)) [0, 1] 100 130 0 0 0 0
      off_centre_extremes.1 off_centre_extremes.2.1 off_centre_extremes.2.2.1
      off_centre_extremes.2.2.2.1 off_centre_extremes.2.2.2.2.1
      off_centre_extremes.2.2.2.2.2).1.2.2.2.1 (by norm_num)⟩

/-- C11 fails as stated. The non-empty list of the vertices at `(100, 0, 0)` and
`(130, 0, 0)` has the smallest x coordinate 100 and the largest 130, an extent of
30, at least 20 wide; `bounding_box` returns the x minimum `-20`, not
`100 - 10 = 90`. -/
theorem bounding_box_not_observed_min :
    is_smallest (fun v => ((mem_at (off_centre ℚ)).vert v).x.x) [0, 1] 100
      ∧ is_largest (fun v => ((mem_at (off_centre ℚ)).vert v).x.x) [0, 1] 130
      ∧ (20 : ℚ) ≤ 130 - 100
      ∧ (bounding_box (mem_at (off_centre ℚ)) [0, 1]).x_min = -20
      ∧ (bounding_box (mem_at (off_centre ℚ)) [0, 1]).x_min ≠ 100 - 10 := by
  have h : (bounding_box (mem_at (off_centre ℚ)) [0, 1]).x_min = -20 := by
    simp [bounding_box, bounding_box_step, mem_at, off_centre]
    norm_num
  refine ⟨off_centre_extremes.1, off_centre_extremes.2.1, by norm_num, h, ?_⟩
  rw [h]
  norm_num

/-- A spring term of the finest layer is undefined exactly for an edge flagged
spline that has no centroid. -/
theorem finest_spring_term_eq_none (L : layer α) (m : Mem α) (v : VId) (e : EId) :
    finest_spring_term L m v e = none
      ↔ ((m.edg e).styled = true ∧ (m.edg e).spline = true ∧ (m.edg e).vspline = none) := by
  unfold finest_spring_term
  by_cases hs : (m.edg e).styled = true ∧ (m.edg e).spline = true
  · rw [if_pos hs]
    cases hv : (m.edg e).vspline <;> simp [hs.1, hs.2]
  · rw [if_neg hs]
    constructor
    · intro h
      split at h <;> simp at h
    · intro h
      exact absurd ⟨h.1, h.2.1⟩ hs

/-- The spring terms of the finest layer read positions and edges only. -/
theorem finest_spring_term_congr (L : layer α) {m m' : Mem α} (h : only_ddx_ m m') (v : VId)
    (e : EId) : finest_spring_term L m' v e = finest_spring_term L m v e := by
  obtain ⟨he, _, hf⟩ := h
  have hx : ∀ u, (m'.vert u).x = (m.vert u).x := fun u => (hf u).1
  simp only [finest_spring_term, layer.spring_force, other_end, orientation_bias, he, hx]

/-- Whether the spring terms of `v` are defined is not changed by writes to
`ddx_`. -/
theorem springs_defined_congr {m m' : Mem α} (h : only_ddx_ m m') (v : VId) :
    springs_defined m' v ↔ springs_defined m v := by
  obtain ⟨he, _, hf⟩ := h
  simp only [springs_defined, he, (hf v).2.2.2.2.1]

/-- With every spring term of `v` defined, the terms form a list. -/
theorem springs_defined_terms (L : layer α) (m : Mem α) (v : VId) (es : List EId)
    (h : ∀ e ∈ es, (m.edg e).styled = true → (m.edg e).spline = true →
      (m.edg e).vspline ≠ none) :
    ∃ ts : List (vector3d α), es.map (finest_spring_term L m v) = ts.map some := by
  induction es with
  | nil => exact ⟨[], rfl⟩
  | cons e es ih =>
    obtain ⟨ts, hts⟩ := ih (fun e' he' => h e' (List.mem_cons_of_mem _ he'))
    cases ht : finest_spring_term L m v e with
    | none =>
      obtain ⟨h1, h2, h3⟩ := (finest_spring_term_eq_none L m v e).1 ht
      exact absurd h3 (h e (List.mem_cons_self _ _) h1 h2)
    | some t => exact ⟨t :: ts, by simp [ht, hts]⟩

/-- The spring loop of the finest layer fails when one of its terms is
undefined. -/
theorem finest_layer.spring_foldlM_none (L : layer α) (m : Mem α) (v : VId) (es : List EId)
    (F : vector3d α) (h : ∃ e ∈ es, finest_spring_term L m v e = none) :
    es.foldlM (finest_layer.spring_step L m v) F = none := by
  induction es generalizing F with
  | nil =>
    obtain ⟨e, he, _⟩ := h
    simp at he
  | cons e es ih =>
    rw [List.foldlM_cons, finest_layer.spring_step_eq]
    cases ht : finest_spring_term L m v e with
    | none => rfl
    | some t =>
      simp only [Option.map_some', Option.bind_eq_bind, Option.some_bind]
      apply ih
      obtain ⟨e', he', hn⟩ := h
      rcases List.mem_cons.1 he' with rfl | h'
      · rw [ht] at hn
        simp at hn
      · exact ⟨e', h', hn⟩

/-- One iteration of the force loop of the finest layer, when every spring term of
the vertex is defined. -/
theorem finest_layer.force_step_some {T : Type} (O : spatial_octree α T) (t : T)
    (L : layer α) (s : Mem α × Nat) (v : VId) (ts : List (vector3d α))
    (h : (s.1.vert v).es.map (finest_spring_term L s.1 v) = ts.map some) :
    finest_layer.force_step O t L s v
      = some (s.1.setVert v
          { s.1.vert v with
            ddx_ := (O.repulsion_force t s.1 s.2 v L.f0 L.eps).1 + ts.sum },
        (O.repulsion_force t s.1 s.2 v L.f0 L.eps).2) := by
  simp only [finest_layer.force_step]
  rw [finest_layer.spring_foldlM L s.1 v _ 0 ts h, zero_add]

/-- One iteration of the force loop of the finest layer fails when a spring term of
the vertex is undefined. -/
theorem finest_layer.force_step_none {T : Type} (O : spatial_octree α T) (t : T)
    (L : layer α) (s : Mem α × Nat) (v : VId) (h : ¬ springs_defined s.1 v) :
    finest_layer.force_step O t L s v = none := by
  simp only [finest_layer.force_step]
  rw [finest_layer.spring_foldlM_none L s.1 v _ 0]
  simp only [springs_defined, not_forall] at h
  obtain ⟨e, he, h1, h2, h3⟩ := h
  exact ⟨e, he, (finest_spring_term_eq_none L s.1 v e).2 ⟨h1, h2, not_not.1 h3⟩⟩

/-- A write to `ddx_` of one vertex changes `ddx_` only. -/
theorem only_ddx__setVert (m : Mem α) (v : VId) (d : vector3d α) :
    only_ddx_ m (m.setVert v { m.vert v with ddx_ := d }) := by
  refine ⟨rfl, rfl, fun u => ?_⟩
  by_cases h : u = v
  · subst h
    rw [Mem.setVert_vert_same]
    exact ⟨rfl, rfl, rfl, rfl, rfl, rfl⟩
  · rw [Mem.setVert_vert_ne _ _ h]
    exact ⟨rfl, rfl, rfl, rfl, rfl, rfl⟩

/-- The force loop of the finest layer over the list `l`, when every spring term
of every vertex of `l` is defined: it runs through, writes `ddx_` only, and
leaves the vertices outside `l` alone. -/
theorem finest_layer.force_foldlM_some {T : Type} (O : spatial_octree α T) (t : T)
    (L : layer α) (l : List VId) (s : Mem α × Nat)
    (h : ∀ v ∈ l, springs_defined s.1 v) :
    ∃ s', l.foldlM (finest_layer.force_step O t L) s = some s'
      ∧ only_ddx_ s.1 s'.1 ∧ ∀ u, u ∉ l → s'.1.vert u = s.1.vert u := by
  induction l generalizing s with
  | nil => exact ⟨s, rfl, only_ddx_.refl_ddx _, fun _ _ => rfl⟩
  | cons v l ih =>
    obtain ⟨ts, hts⟩ := springs_defined_terms L s.1 v (s.1.vert v).es
      (h v (List.mem_cons_self _ _))
    have hstep := finest_layer.force_step_some O t L s v ts hts
    have hfr := only_ddx__setVert s.1 v
      ((O.repulsion_force t s.1 s.2 v L.f0 L.eps).1 + ts.sum)
    obtain ⟨s', h1, h2, h3⟩ := ih
      (s.1.setVert v
          { s.1.vert v with
            ddx_ := (O.repulsion_force t s.1 s.2 v L.f0 L.eps).1 + ts.sum },
        (O.repulsion_force t s.1 s.2 v L.f0 L.eps).2)
      (fun u hu => (springs_defined_congr hfr u).2 (h u (List.mem_cons_of_mem _ hu)))
    refine ⟨s', ?_, hfr.trans_ddx h2, ?_⟩
    · rw [List.foldlM_cons, hstep]
      exact h1
    · intro u hu
      rw [h3 u (fun hm => hu (List.mem_cons_of_mem _ hm))]
      exact Mem.setVert_vert_ne _ _ (fun e => hu (List.mem_cons.2 (Or.inl e)))

/-- The force loop of the finest layer fails when a spring term of one of its
vertices is undefined. -/
theorem finest_layer.force_foldlM_none {T : Type} (O : spatial_octree α T) (t : T)
    (L : layer α) (l : List VId) (s : Mem α × Nat)
    (h : ∃ v ∈ l, ¬ springs_defined s.1 v) :
    l.foldlM (finest_layer.force_step O t L) s = none := by
  induction l generalizing s with
  | nil =>
    obtain ⟨v, hv, _⟩ := h
    simp at hv
  | cons v l ih =>
    rw [List.foldlM_cons]
    by_cases hd : springs_defined s.1 v
    · obtain ⟨ts, hts⟩ := springs_defined_terms L s.1 v (s.1.vert v).es hd
      rw [finest_layer.force_step_some O t L s v ts hts]
      simp only [Option.bind_eq_bind, Option.some_bind]
      apply ih
      obtain ⟨u, hu, hn⟩ := h
      rcases List.mem_cons.1 hu with rfl | hu'
      · exact absurd hd hn
      · exact ⟨u, hu', fun hc => hn ((springs_defined_congr
          (only_ddx__setVert s.1 v _) u).1 hc)⟩
    · rw [finest_layer.force_step_none O t L s v hd]
      rfl

/-- The value the force loop of the finest layer leaves in `ddx_` of a vertex `v`
that it evaluates last at the position after `pre`: the tree's force on `v` as
queried at that point plus the sum of the spring terms of `v`. -/
theorem finest_layer.force_foldlM_value {T : Type} (O : spatial_octree α T) (t : T)
    (L : layer α) (pre post : List VId) (v : VId) (s s' : Mem α × Nat)
    (h : ∀ u ∈ pre ++ v :: post, springs_defined s.1 u) (hv : v ∉ post)
    (hs' : (pre ++ v :: post).foldlM (finest_layer.force_step O t L) s = some s') :
    ∃ (sp : Mem α × Nat) (ts : List (vector3d α)),
      pre.foldlM (finest_layer.force_step O t L) s = some sp
      ∧ (s.1.vert v).es.map (finest_spring_term L s.1 v) = ts.map some
      ∧ (s'.1.vert v).ddx_ = (O.repulsion_force t sp.1 sp.2 v L.f0 L.eps).1 + ts.sum := by
  obtain ⟨sp, hp1, hp2, _⟩ := finest_layer.force_foldlM_some O t L pre s
    (fun u hu => h u (List.mem_append_left _ hu))
  have hdv : springs_defined sp.1 v :=
    (springs_defined_congr hp2 v).2 (h v (List.mem_append_right _ (List.mem_cons_self _ _)))
  obtain ⟨ts, hts⟩ := springs_defined_terms L sp.1 v (sp.1.vert v).es hdv
  have hstep := finest_layer.force_step_some O t L sp v ts hts
  have hfr := only_ddx__setVert sp.1 v
    ((O.repulsion_force t sp.1 sp.2 v L.f0 L.eps).1 + ts.sum)
  obtain ⟨sq, hq1, _, hq3⟩ := finest_layer.force_foldlM_some O t L post
    (sp.1.setVert v
        { sp.1.vert v with
          ddx_ := (O.repulsion_force t sp.1 sp.2 v L.f0 L.eps).1 + ts.sum },
      (O.repulsion_force t sp.1 sp.2 v L.f0 L.eps).2)
    (fun u hu => (springs_defined_congr (hp2.trans_ddx hfr) u).2
      (h u (List.mem_append_right _ (List.mem_cons_of_mem _ hu))))
  have hall : (pre ++ v :: post).foldlM (finest_layer.force_step O t L) s = some sq := by
    rw [List.foldlM_append, hp1]
    simp only [Option.bind_eq_bind, Option.some_bind]
    rw [List.foldlM_cons, hstep]
    exact hq1
  have heq : s' = sq := Option.some.inj (hs'.symm.trans hall)
  refine ⟨sp, ts, hp1, ?_, ?_⟩
  · have hes : (sp.1.vert v).es = (s.1.vert v).es := (hp2.2.2 v).2.2.2.2.1
    rw [← hes, ← hts]
    exact List.map_congr_left (fun e _ => (finest_spring_term_congr L hp2 v e).symm)
  · rw [heq, hq3 v hv, Mem.setVert_vert_same]

theorem fresh_from_refl (init : Mem α → EId → vertex α) (m : Mem α) : fresh_from init m m :=
  fun u h1 h2 => absurd h2 (not_lt.2 h1)

/-- New vertex objects keep their contents when more are created after them. -/
theorem fresh_from_chain (init : Mem α → EId → vertex α) {m M N : Mem α}
    (h1 : extends_mem m M) (f1 : fresh_from init m M) (h2 : extends_mem M N)
    (f2 : fresh_from init M N) : fresh_from init m N := by
  intro u hu1 hu2
  by_cases h : u < M.brk
  · rw [h2.2.1 u h]
    exact f1 u hu1 h
  · exact f2 u (not_lt.1 h) hu2

theorem set_spline_fresh (init : Mem α → EId → vertex α) (m : Mem α) (e : EId) :
    fresh_from init m (set_spline init m e) := by
  intro u hu1 hu2
  have hu : u = m.brk := le_antisymm (Nat.lt_succ_iff.1 hu2) hu1
  exact ⟨m, e, by simp [set_spline, hu]⟩

theorem finest_layer.collect_step_fresh (init : Mem α → EId → vertex α) (v : VId)
    (s : working_set α) (e : EId) :
    fresh_from init s.mem (finest_layer.collect_step init v s e).mem := by
  unfold finest_layer.collect_step
  by_cases hc : (s.mem.edg e).spline = true ∧ (s.mem.edg e).a = v
  · cases hv : (s.mem.edg e).vspline with
    | none =>
      simp only [hc, and_self, if_true, hv]
      exact set_spline_fresh init s.mem e
    | some c =>
      simp only [hc, and_self, if_true, hv]
      exact fresh_from_refl init _
  · simp only [hc, if_false]
    exact fresh_from_refl init _

theorem finest_layer.collect_inner_fresh (init : Mem α → EId → vertex α) (v : VId)
    (es : List EId) (s : working_set α) :
    fresh_from init s.mem (es.foldl (finest_layer.collect_step init v) s).mem := by
  induction es generalizing s with
  | nil => exact fresh_from_refl init _
  | cons e es ih =>
    simp only [List.foldl_cons]
    exact fresh_from_chain init (finest_layer.collect_step_spec init v s e).1
      (finest_layer.collect_step_fresh init v s e)
      (finest_layer.collect_inner init v es _).1 (ih _)

theorem finest_layer.collect_outer_fresh (init : Mem α → EId → vertex α) (m : Mem α)
    (l : List VId) (s : working_set α) (hs : extends_mem m s.mem)
    (hl : ∀ v ∈ l, v < m.brk) :
    fresh_from init s.mem
      (l.foldl
        (fun s v => (s.mem.vert v).es.foldl (finest_layer.collect_step init v) s) s).mem := by
  induction l generalizing s with
  | nil => exact fresh_from_refl init _
  | cons v l ih =>
    have x1 := (finest_layer.collect_inner init v (s.mem.vert v).es s).1
    have hl' : ∀ u ∈ l, u < m.brk := fun u hu => hl u (List.mem_cons_of_mem _ hu)
    simp only [List.foldl_cons]
    exact fresh_from_chain init x1 (finest_layer.collect_inner_fresh init v _ s)
      (finest_layer.collect_outer init m l _ (hs.trans_mem x1) hl').1
      (ih _ (hs.trans_mem x1) hl')

/-- The displacement loop leaves the edges alone. -/
theorem layer.apply_displacement_fold_edg (sqrt : α → α) (L : layer α) (dt : α)
    (l : List VId) (m : Mem α) :
    (l.foldl (fun m v => L.apply_displacement sqrt m v dt) m).edg = m.edg := by
  induction l generalizing m with
  | nil => rfl
  | cons v l ih =>
    rw [List.foldl_cons, ih]
    rfl

/-- Under the well-formedness conditions on the graph, every spline edge in the
incident list of a working vertex has its centroid when lines 161-171 are
through. -/
theorem finest_layer.working_vs_defined (init : Mem α → EId → vertex α) (L : layer α)
    (m : Mem α) (hfresh : ∀ v ∈ L.vs, v < m.brk)
    (hcent : ∀ e ∈ L.vs.flatMap (spline_occurrences m), ∀ c,
      (m.edg e).vspline = some c → c < m.brk)
    (hcov : ∀ u, (u ∈ L.vs ∨ ∃ e0 ∈ L.vs.flatMap (spline_occurrences m),
        (m.edg e0).vspline = some u) →
      ∀ e ∈ (m.vert u).es, (m.edg e).styled = true → (m.edg e).spline = true →
        has_centroid_source L m e)
    (hinit : ∀ M e0, ∀ e ∈ (init M e0).es, (m.edg e).styled = true →
      (m.edg e).spline = true → has_centroid_source L m e) :
    ∀ u ∈ (finest_layer.working_vs init L m).vs,
      springs_defined (finest_layer.working_vs init L m).mem u := by
  obtain ⟨x1, _, x3, x4⟩ := finest_layer.collect_outer init m L.vs
    { mem := m, this_vs := L.vs, vs := L.vs } (extends_mem.refl_mem m) hfresh
  have xf := finest_layer.collect_outer_fresh init m L.vs
    { mem := m, this_vs := L.vs, vs := L.vs } (extends_mem.refl_mem m) hfresh
  change extends_mem m (finest_layer.working_vs init L m).mem at x1
  change (finest_layer.working_vs init L m).vs.map some = _ at x3
  change ∀ e ∈ _, ((finest_layer.working_vs init L m).mem.edg e).vspline ≠ none at x4
  change fresh_from init m (finest_layer.working_vs init L m).mem at xf
  have hsrc : ∀ e, has_centroid_source L m e →
      ((finest_layer.working_vs init L m).mem.edg e).vspline ≠ none := by
    intro e h
    rcases h with h | h
    · rw [x1.vspline_keep e h]
      exact h
    · exact x4 e h
  have hflag : ∀ e, ((finest_layer.working_vs init L m).mem.edg e).styled = (m.edg e).styled
      ∧ ((finest_layer.working_vs init L m).mem.edg e).spline = (m.edg e).spline := by
    intro e
    rw [x1.2.2.1 e]
    exact ⟨rfl, rfl⟩
  have hold : ∀ u, u < m.brk →
      (u ∈ L.vs ∨ ∃ e0 ∈ L.vs.flatMap (spline_occurrences m), (m.edg e0).vspline = some u) →
      springs_defined (finest_layer.working_vs init L m).mem u := by
    intro u hu hw e he h1 h2
    rw [x1.2.1 u hu] at he
    rw [(hflag e).1] at h1
    rw [(hflag e).2] at h2
    exact hsrc e (hcov u hw e he h1 h2)
  intro u hu
  have hmem : some u ∈ (finest_layer.working_vs init L m).vs.map some :=
    List.mem_map_of_mem _ hu
  rw [x3, List.mem_append] at hmem
  rcases hmem with h | h
  · obtain ⟨u', hu', heq⟩ := List.mem_map.1 h
    have : u' = u := Option.some.inj heq
    subst this
    exact hold u' (hfresh u' hu') (Or.inl hu')
  · obtain ⟨e0, he0, heq⟩ := List.mem_map.1 h
    rcases x1.2.2.2.2 e0 u heq with h0 | ⟨_, h1, h2⟩
    · exact hold u (hcent e0 he0 u h0) (Or.inr ⟨e0, he0, h0⟩)
    · obtain ⟨M', e', hv⟩ := xf u h1 h2
      intro e he h3 h4
      rw [hv] at he
      rw [(hflag e).1] at h3
      rw [(hflag e).2] at h4
      exact hsrc e (hinit M' e' e he h3 h4)

/-- `finest_layer::layout` in terms of its stages: the force loop over the working
list, run on the displaced memory with the tree built over it, followed by the
velocity loop. -/
theorem finest_layer.layout_eq {T : Type} (sqrt : α → α) (O : spatial_octree α T)
    (init : Mem α → EId → vertex α) (L : layer α) (m : Mem α) (rng : Nat) (dt : α) :
    finest_layer.layout sqrt O init L (m, rng) dt
      = ((finest_layer.working_vs init L m).vs.foldlM
          (finest_layer.force_step O
            (build_tree O (finest_layer.displaced sqrt init L m dt)
              (finest_layer.working_vs init L m).vs) L)
          (finest_layer.displaced sqrt init L m dt, rng)).map
        (fun s2 =>
          (({ mem := (finest_layer.working_vs init L m).vs.foldl
                (fun m v => L.update_velocity m v dt) s2.1
              this_vs := (finest_layer.working_vs init L m).this_vs
              vs := (finest_layer.working_vs init L m).vs } : working_set α), s2.2)) := by
  unfold finest_layer.layout finest_layer.displaced
  simp only []
  cases (finest_layer.working_vs init L m).vs.foldlM
    (finest_layer.force_step O
      (build_tree O ((finest_layer.working_vs init L m).vs.foldl
        (fun m v => L.apply_displacement sqrt m v dt) (finest_layer.working_vs init L m).mem)
        (finest_layer.working_vs init L m).vs) L)
    ((finest_layer.working_vs init L m).vs.foldl
      (fun m v => L.apply_displacement sqrt m v dt) (finest_layer.working_vs init L m).mem,
      rng) <;> rfl

/-- The displacement loop of the finest layer changes neither the edges nor the
incident lists, so the spring terms defined before it are defined after it. -/
theorem finest_layer.displaced_defined (sqrt : α → α) (init : Mem α → EId → vertex α)
    (L : layer α) (m : Mem α) (dt : α) (u : VId) :
    springs_defined (finest_layer.displaced sqrt init L m dt) u
      ↔ springs_defined (finest_layer.working_vs init L m).mem u := by
  have he := layer.apply_displacement_fold_edg sqrt L dt (finest_layer.working_vs init L m).vs
    (finest_layer.working_vs init L m).mem
  have hes := (foldl_links (fun m v => L.apply_displacement sqrt m v dt)
    (layer.apply_displacement_links sqrt L dt) (finest_layer.working_vs init L m).vs
    (finest_layer.working_vs init L m).mem u).1
  simp only [springs_defined, finest_layer.displaced, he, hes]

/-- The real vertices of the layer are working vertices. -/
theorem finest_layer.real_mem_working (init : Mem α → EId → vertex α) (L : layer α)
    (m : Mem α) (hfresh : ∀ v ∈ L.vs, v < m.brk) :
    ∀ v ∈ L.vs, v ∈ (finest_layer.working_vs init L m).vs := by
  obtain ⟨_, _, x3, _⟩ := finest_layer.collect_outer init m L.vs
    { mem := m, this_vs := L.vs, vs := L.vs } (extends_mem.refl_mem m) hfresh
  change (finest_layer.working_vs init L m).vs.map some = _ at x3
  intro v hv
  have h : some v ∈ (finest_layer.working_vs init L m).vs.map some := by
    rw [x3]
    exact List.mem_append_left _ (List.mem_map_of_mem _ hv)
  obtain ⟨u, hu, heq⟩ := List.mem_map.1 h
  exact Option.some.inj heq ▸ hu

/-- The working list of the layer over the vertices 0 and 1 of `half_listed_mem`:
the spline edge 0 is not in the incident list of its canonical endpoint 0, so
lines 161-171 create no centroid. -/
theorem half_listed_working :
    finest_layer.working_vs (centroid_init ℝ) (demo_layer ℝ) (half_listed_mem ℝ)
      = { mem := half_listed_mem ℝ, this_vs := [0, 1], vs := [0, 1] } := by
  simp [finest_layer.working_vs, finest_layer.collect_step, demo_layer, half_listed_mem]

end Galaster
